import Mathlib

/-!
Verification model of the `archive-workdir` tool (`archive_workdir/archive_workdir.py`).

The program reconciles the immediate subdirectories of a work root with an
archive root.  Identity of a subdirectory across renames is a one-line marker
stored in a sentinel file `.awid` inside the directory.

Shallow embedding notes:
* A directory root is a flat list of `Entry` values: the entry's `name`, whether
  it `isDir`, and the raw content of its `.awid` sentinel file (`none` when the
  sentinel is absent).  The reconciler only inspects roots at this granularity:
  names, directory-ness, and sentinel contents.  File contents below that level
  are delegated to rsync and are not part of any claim.
* `read_dir_id` models `read_dir_id` of the source: Python's
  `f.readline().strip()` on the sentinel content, `None` for an absent or
  blank-first-line sentinel.
* `os.rename` is modelled as failing when the destination name already exists
  (the `FilesystemConflict` of the spec; POSIX fails for non-empty destination
  directories) or the source is missing, and as succeeding otherwise.
* `mark_dir` writes `f"{datetime.now()} {path1}"`; the generated marker is
  modelled by an oracle `genId : String → String` applied to the directory
  name, since the path determines the marker up to the timestamp.
* The external mirror step (`rsync -a --delete work/ target`) makes the target
  entry match the work entry, in particular copying the `.awid` sentinel; with
  `--dry-run` it changes nothing.  Each invocation is recorded as an
  `RsyncCall` including whether `--dry-run` was passed.
* `attempt_renames` (the optional `--rename` pre-pass) renames same-size files
  inside already-matched directory pairs; it never changes root-level entry
  names or sentinel contents, so at this model's granularity it is a no-op (its
  own mutations are also guarded by `if not args.dry_run` in the source).
-/

namespace AW

/-- Characters stripped by Python's `str.strip()` (ASCII whitespace). -/
def isPySpace (c : Char) : Bool :=
  c = ' ' || c = '\t' || c = '\n' || c = '\r' || c = '\x0b' || c = '\x0c'

/-- Strip leading and trailing whitespace from a character list. -/
def stripChars (l : List Char) : List Char :=
  ((l.dropWhile isPySpace).reverse.dropWhile isPySpace).reverse

/-- Python `str.strip()`. -/
def pyStrip (s : String) : String := ⟨stripChars s.data⟩

/-- Characters of the first line, including its terminating newline if any. -/
def readlineChars : List Char → List Char
  | [] => []
  | c :: cs => if c = '\n' then [c] else c :: readlineChars cs

/-- Python `f.readline()`: the first line including its newline. -/
def pyReadline (s : String) : String := ⟨readlineChars s.data⟩

/-- Characters of the first line, without the newline. -/
def firstLineChars (l : List Char) : List Char :=
  l.takeWhile (fun c => c != '\n')

/-- The first line of a string, without its newline. -/
def firstLine (s : String) : String := ⟨firstLineChars s.data⟩

/-- Source `read_dir_id` (lines 85-97): the argument is the content of the
`.awid` sentinel file (`none` when `os.path.isfile` is false).  The source
reads the first line, strips it, and maps an empty result to `None`. -/
def read_dir_id : Option String → Option String
  | none => none
  | some content =>
    let dir_id := pyStrip (pyReadline content)
    if dir_id = "" then none else some dir_id

/-- Split a character list at newlines (Python `splitlines`-style, keeping a
final empty line, which is irrelevant to first-non-empty search). -/
def linesChars : List Char → List (List Char)
  | [] => [[]]
  | c :: cs =>
    if c = '\n' then [] :: linesChars cs
    else
      match linesChars cs with
      | l :: ls => (c :: l) :: ls
      | [] => [[c]]

/-- Modelled from the spec: `read_identity(dir) -> marker | None` "returns the
first non-empty line of the sentinel file inside `dir`, or `None` if the file
is absent or empty", tolerating surrounding whitespace on each line.  This is
the spec's wording, to be compared with the source's `read_dir_id`. -/
def read_identity_spec (content : Option String) : Option String :=
  content.bind fun s =>
    ((linesChars s.data).map (fun l => pyStrip ⟨l⟩)).find? (fun l => l != "")

/-- State of the sentinel file as the filesystem presents it: absent,
present-but-unreadable (`open` raises, e.g. a permissions error), or readable
with some content. -/
inductive SentinelFile
  | absent
  | unreadable
  | readable (content : String)
deriving Repr, DecidableEq

/-- Source `read_dir_id` with the fallible `open` made explicit.  The source
guards only with `os.path.isfile` and has no `try`/`except`: when the sentinel
exists but `open` raises, the exception propagates. -/
def read_dir_id_fs : SentinelFile → Except Unit (Option String)
  | .absent => .ok none
  | .unreadable => .error ()
  | .readable content => .ok (read_dir_id (some content))

/-- An immediate child of a root directory: its name, whether it is a
directory, and the raw content of its `.awid` sentinel (`none` when absent;
meaningless and ignored for non-directories). -/
structure Entry where
  name : String
  isDir : Bool
  awid : Option String
deriving Repr, DecidableEq

/-- A root directory is the list of its immediate children, in filesystem
enumeration order. -/
abbrev Root := List Entry

/-- Python `Path.exists()` for `root/nm`: any entry of that name, directory or
not. -/
def existsName (root : Root) (nm : String) : Bool :=
  root.any (fun e => e.name == nm)

/-- Find the entry of a given name. -/
def findNamed (root : Root) (nm : String) : Option Entry :=
  root.find? (fun e => e.name == nm)

/-- Whether `root/nm` exists and is a directory. -/
def isDirNamed (root : Root) (nm : String) : Bool :=
  match findNamed root nm with
  | some e => e.isDir
  | none => false

/-- Overwrite the sentinel content of the entry named `nm`. -/
def setAwid (root : Root) (nm : String) (v : String) : Root :=
  root.map (fun e => if e.name = nm then { e with awid := some v } else e)

/-- Model of `os.rename(src, dst)` on sibling entries: fails when the source is
missing (`ENOENT`) or the destination name exists (the spec's
`FilesystemConflict`; POSIX fails for a non-empty destination directory). -/
def renameEntry (root : Root) (src dst : String) : Except String Root :=
  if existsName root src then
    if existsName root dst then
      .error ("os.rename destination exists: " ++ dst)
    else
      .ok (root.map (fun e => if e.name = src then { e with name := dst } else e))
  else
    .error ("os.rename source missing: " ++ src)

/-- Model of `open(path/nm/.awid, "w").write(v)`: fails when `root/nm` is
missing (`FileNotFoundError`) or not a directory (`NotADirectoryError`). -/
def writeAwidFile (root : Root) (nm : String) (v : String) : Except String Root :=
  if isDirNamed root nm then .ok (setAwid root nm v)
  else .error ("open .awid for write failed under: " ++ nm)

/-- One iteration of the index-building loop (source lines 211-215): a
directory entry with a truthy `read_dir_id` is recorded as `dir_id ↦ name`. -/
def indexInsert (idx : List (String × String)) (e : Entry) : List (String × String) :=
  if e.isDir then
    match read_dir_id e.awid with
    | some dir_id => (dir_id, e.name) :: idx
    | none => idx
  else idx

/-- Source lines 210-215: the archive identity index.  A Python dict
assignment lets the later entry win, which the prepend-fold reproduces
(`lookupId` finds the most recently inserted pair). -/
def knownArchiveDirs (archive : Root) : List (String × String) :=
  archive.foldl indexInsert []

/-- Dictionary lookup `known_archive_dirs.get(dir_id, None)`, returning the
archive subdirectory name. -/
def lookupId (idx : List (String × String)) (i : String) : Option String :=
  match idx.find? (fun p => p.1 == i) with
  | some p => some p.2
  | none => none

/-- Command-line options of the tool (argparse surface). -/
structure Options where
  dry_run : Bool := false
  report_skipped : Bool := false
  mark : Option String := none
  mark_new : Bool := false
  rename : Bool := false
  verbose : Bool := false
  test_no_rsync : Bool := false
deriving Repr, DecidableEq

/-- Python truthiness of `args.mark` (`if args.mark:`): a non-`None`,
non-empty string. -/
def markRequested : Option String → Bool
  | none => false
  | some s => s != ""

/-- The per-subdirectory classification (the spec's Reconciliation Decision;
the source stores the corresponding human-readable `action` strings, see
`actionMessage`). -/
inductive Action
  | NEW
  | NEW_CONFLICT_SKIP
  | NEW_CONFLICT_OVERWRITE
  | RESYNC
  | RENAMED (oldName : String)
  | RESTORE
  | CONFLICT_SKIP
deriving Repr, DecidableEq

/-- The exact `action` strings of the source for each classification. -/
def actionMessage : Action → String
  | .NEW => "NEW"
  | .NEW_CONFLICT_SKIP =>
      "SKIPPING: new, but exists in archive. Mark with --mark to sync in future"
  | .NEW_CONFLICT_OVERWRITE => "NEW OVERWRITING directory of same name in archive"
  | .RESYNC => "re-syncing"
  | .RENAMED oldName => "has been renamed from " ++ oldName ++ ", archive to be updated"
  | .RESTORE => "RESTORING to archive"
  | .CONFLICT_SKIP =>
      "SKIPPING because marked but conflicts with archive. Re-mark with --mark to overwrite"

/-- Result of processing one work subdirectory in the scan loop: the
classification, the sync target (`archive_subdir`, `none` meaning the entry is
skipped), the work entry after a possible `mark_dir` write, the archive root
after a possible write or rename, and the rename performed, if any. -/
structure StepOut where
  action : Action
  target : Option String
  workEntry : Entry
  archive : Root
  renamedOp : Option (String × String)
deriving Repr, DecidableEq

/-- Source lines 220-261, the body of the scan loop for one work subdirectory
`w`, against the snapshot index `idx` (built once, before the loop) and the
current archive state `arch`.  Mutations are guarded by `args.dry_run` exactly
as in the source; in particular, in the dry-run renamed branch `archive_subdir`
stays `None`. -/
def step (opts : Options) (genId : String → String) (idx : List (String × String))
    (arch : Root) (w : Entry) : Except String StepOut :=
  match read_dir_id w.awid with
  | none =>
    if existsName arch w.name then
      if opts.mark_new then
        if opts.dry_run then
          .ok ⟨.NEW_CONFLICT_OVERWRITE, some w.name, w, arch, none⟩
        else
          match writeAwidFile arch w.name (genId w.name) with
          | .ok arch' =>
            .ok ⟨.NEW_CONFLICT_OVERWRITE, some w.name,
                 { w with awid := some (genId w.name) }, arch', none⟩
          | .error e => .error e
      else
        .ok ⟨.NEW_CONFLICT_SKIP, none, w, arch, none⟩
    else
      if opts.dry_run then
        .ok ⟨.NEW, some w.name, w, arch, none⟩
      else
        .ok ⟨.NEW, some w.name, { w with awid := some (genId w.name) }, arch, none⟩
  | some work_dir_id =>
    match lookupId idx work_dir_id with
    | some bname =>
      if bname != w.name then
        if opts.dry_run then
          .ok ⟨.RENAMED bname, none, w, arch, none⟩
        else
          match renameEntry arch bname w.name with
          | .ok arch' => .ok ⟨.RENAMED bname, some w.name, w, arch', some (bname, w.name)⟩
          | .error e => .error e
      else
        .ok ⟨.RESYNC, some bname, w, arch, none⟩
    | none =>
      if existsName arch w.name then
        .ok ⟨.CONFLICT_SKIP, none, w, arch, none⟩
      else
        .ok ⟨.RESTORE, some w.name, w, arch, none⟩

/-- Accumulated outcome of the scan loop: the per-entry classification log, the
`rsync_todo` plan (work name, archive target name), the `skipped` list, the
archive renames performed (in order), the processed work entries, and the
archive state after the scan. -/
structure ScanResult where
  actions : List (String × Action)
  plan : List (String × String)
  skipped : List (String × Action)
  renames : List (String × String)
  workOut : List Entry
  archive : Root
deriving Repr, DecidableEq

/-- The scan loop over the (sorted) work subdirectories.  A step's exception
aborts the whole run, exactly as an uncaught `OSError` would. -/
def scanGo (opts : Options) (genId : String → String) (idx : List (String × String)) :
    List Entry → Root → Except String ScanResult
  | [], arch => .ok ⟨[], [], [], [], [], arch⟩
  | w :: ws, arch =>
    match step opts genId idx arch w with
    | .error e => .error e
    | .ok o =>
      match scanGo opts genId idx ws o.archive with
      | .error e => .error e
      | .ok r =>
        .ok ⟨(w.name, o.action) :: r.actions,
             (match o.target with | some t => (w.name, t) :: r.plan | none => r.plan),
             (match o.target with | some _ => r.skipped | none => (w.name, o.action) :: r.skipped),
             (match o.renamedOp with | some p => p :: r.renames | none => r.renames),
             o.workEntry :: r.workOut,
             r.archive⟩

/-- One recorded invocation of the external mirror (`rsync_dir`). -/
structure RsyncCall where
  workName : String
  target : String
  dryRun : Bool
deriving Repr, DecidableEq

/-- Effect of `rsync -a --delete work/ target` at this model's granularity:
the target entry becomes a directory whose sentinel content equals the work
side's (created if absent). -/
def upsert (arch : Root) (nm : String) (awid : Option String) : Root :=
  if existsName arch nm then
    arch.map (fun e => if e.name = nm then ⟨nm, true, awid⟩ else e)
  else
    arch ++ [⟨nm, true, awid⟩]

/-- Sentinel content `rsync` copies for work subdirectory `wn`: the `.awid`
content of the processed work entry. -/
def mirrorContent (workOut : List Entry) (wn : String) : Option String :=
  match findNamed workOut wn with
  | some e => e.awid
  | none => none

/-- State of the archive root after one rsync invocation for plan entry
`(wn, tgt)`: unchanged under `--dry-run`, otherwise the target entry is made
to match the processed work entry `wn`. -/
def rsyncEffect (opts : Options) (workOut : List Entry) (arch : Root) (wn tgt : String) : Root :=
  if opts.dry_run then arch
  else upsert arch tgt (mirrorContent workOut wn)

/-- Source lines 271-280: run the mirror step over the plan.  With
`--test-no-rsync` no rsync runs; with `--dry-run` rsync is still invoked but
with `--dry-run` appended, changing nothing. -/
def mirrorPhase (opts : Options) (workOut : List Entry) :
    List (String × String) → Root → List RsyncCall × Root
  | [], arch => ([], arch)
  | (wn, tgt) :: rest, arch =>
    if opts.test_no_rsync then
      mirrorPhase opts workOut rest arch
    else
      (⟨wn, tgt, opts.dry_run⟩ ::
         (mirrorPhase opts workOut rest (rsyncEffect opts workOut arch wn tgt)).1,
       (mirrorPhase opts workOut rest (rsyncEffect opts workOut arch wn tgt)).2)

/-- Lexicographic comparison of character lists by code point (how Python
compares strings). -/
def charListLe : List Char → List Char → Bool
  | [], _ => true
  | _ :: _, [] => false
  | a :: as, b :: bs =>
    if a.toNat < b.toNat then true
    else if b.toNat < a.toNat then false
    else charListLe as bs

/-- Lexicographic string comparison by code point (Python's `<=` on `str`;
proved below to agree with Mathlib's linear order on `String`). -/
def strLe (a b : String) : Bool := charListLe a.data b.data

/-- Comparison used by `sorted(...)` on work subdirectory paths: they share the
`work_base` prefix, so `Path` order is lexicographic order of the names. -/
def nameLe (a b : Entry) : Bool := strLe a.name b.name

/-- Insert an entry into a name-sorted list, before the first entry it is
`nameLe`-below (stable: an inserted element goes before later equal keys). -/
def insertByName (x : Entry) : List Entry → List Entry
  | [] => [x]
  | y :: ys => if nameLe x y then x :: y :: ys else y :: insertByName x ys

/-- Python `sorted` by subdirectory name (a stable sort; realised here as
stable insertion sort, which agrees with any stable sort). -/
def sortByName : List Entry → List Entry
  | [] => []
  | x :: xs => insertByName x (sortByName xs)

/-- The two roots handed to the program. -/
structure FS where
  work : List Entry
  archive : Root
deriving Repr, DecidableEq

/-- The work root's immediate subdirectories (`filter(lambda p: p.is_dir(), ...)`). -/
def workDirs (fs : FS) : List Entry := fs.work.filter (fun e => e.isDir)

/-- Reassemble the full work root after the scan: directory entries are
replaced by their processed versions, other entries are untouched. -/
def mergeWork (orig : List Entry) (updated : List Entry) : List Entry :=
  orig.map (fun e =>
    if e.isDir then
      match findNamed updated e.name with
      | some e' => e'
      | none => e
    else e)

/-- Observable outcome of a completed run: the process exit code (`sys.exit` of
`main`'s return value; `None` exits 0), the classification log, plan, skipped
list, performed archive renames, recorded rsync invocations, and the final
state of both roots. -/
structure RunResult where
  exitCode : Nat
  actions : List (String × Action)
  plan : List (String × String)
  skipped : List (String × Action)
  renames : List (String × String)
  rsyncCalls : List RsyncCall
  work : List Entry
  archive : Root
deriving Repr, DecidableEq

/-- Source `main` (lines 186-290): the single-mark branch, or index build, scan
and mirror phase.  `genId` is the marker oracle (timestamp + path). -/
def main (opts : Options) (genId : String → String) (fs : FS) : Except String RunResult :=
  if markRequested opts.mark then
    if opts.dry_run then
      .ok ⟨0, [], [], [], [], [], fs.work, fs.archive⟩
    else
      match writeAwidFile fs.work (opts.mark.getD "") (genId (opts.mark.getD "")) with
      | .error e => .error e
      | .ok work' =>
        match writeAwidFile fs.archive (opts.mark.getD "") (genId (opts.mark.getD "")) with
        | .error e => .error e
        | .ok archive' => .ok ⟨0, [], [], [], [], [], work', archive'⟩
  else
    match scanGo opts genId (knownArchiveDirs fs.archive) (sortByName (workDirs fs)) fs.archive with
    | .error e => .error e
    | .ok s =>
      .ok ⟨(if (!s.skipped.isEmpty) && opts.report_skipped then 1 else 0),
           s.actions, s.plan, s.skipped, s.renames,
           (mirrorPhase opts s.workOut s.plan s.archive).1,
           mergeWork fs.work s.workOut,
           (mirrorPhase opts s.workOut s.plan s.archive).2⟩

/-- Hypothesis predicate: the names in a root are pairwise distinct (always
true of a real directory listing). -/
def namesNodup (l : List Entry) : Prop := (l.map Entry.name).Nodup

/-- Hypothesis predicate: among the directory entries of a root, distinct
entries never carry the same readable identity marker. -/
def idsDistinct (l : List Entry) : Prop :=
  ∀ e₁ ∈ l, ∀ e₂ ∈ l, e₁.isDir = true → e₂.isDir = true →
    ∀ i, read_dir_id e₁.awid = some i → read_dir_id e₂.awid = some i → e₁ = e₂

/-- Hypothesis predicate: the marker oracle produces, for the work
subdirectory names of `fs`, markers that read back as themselves, are pairwise
distinct, and collide with no identity already present in either root.  The
source generates `f"{datetime.now()} {path1}"`, which has these properties in
ordinary use. -/
def genIdFresh (genId : String → String) (fs : FS) : Prop :=
  (∀ w ∈ workDirs fs, read_dir_id (some (genId w.name)) = some (genId w.name)) ∧
  (∀ w₁ ∈ workDirs fs, ∀ w₂ ∈ workDirs fs,
      genId w₁.name = genId w₂.name → w₁.name = w₂.name) ∧
  (∀ w ∈ workDirs fs, ∀ e ∈ fs.archive, read_dir_id e.awid ≠ some (genId w.name)) ∧
  (∀ w ∈ workDirs fs, ∀ e ∈ fs.work, read_dir_id e.awid ≠ some (genId w.name))

/-- Shape of a root: the data the conflict-existence and directory checks of
the scan observe (names and directory-ness, not sentinel contents). -/
def shape (root : Root) : List (String × Bool) :=
  root.map (fun e => (e.name, e.isDir))

/-- Name order on entries, as a relation (used to state sortedness). -/
def entryLe (a b : Entry) : Prop := a.name ≤ b.name

/-- Whether the scan-loop body, run on `w` against the fixed archive state
`arch`, would put `w` in the sync plan. -/
def stepSyncs (opts : Options) (genId : String → String) (idx : List (String × String))
    (arch : Root) (w : Entry) : Bool :=
  match step opts genId idx arch w with
  | .ok o => o.target.isSome
  | .error _ => false

instance {ε α : Type} [DecidableEq ε] [DecidableEq α] : DecidableEq (Except ε α) := fun a b =>
  match a, b with
  | .error e₁, .error e₂ =>
    if h : e₁ = e₂ then .isTrue (by rw [h]) else .isFalse (by simp [h])
  | .ok v₁, .ok v₂ =>
    if h : v₁ = v₂ then .isTrue (by rw [h]) else .isFalse (by simp [h])
  | .error _, .ok _ => .isFalse (fun hc => Except.noConfusion hc)
  | .ok _, .error _ => .isFalse (fun hc => Except.noConfusion hc)

/-! Theorems.  First, facts about the identity store (claims C7 and C8). -/

theorem dropWhile_append_nl (l : List Char) :
    (l ++ ['\n']).dropWhile isPySpace =
      if (l.dropWhile isPySpace).isEmpty then [] else l.dropWhile isPySpace ++ ['\n'] := by
  induction l with
  | nil => simp [isPySpace]
  | cons c cs ih =>
    by_cases h : isPySpace c
    · simpa [List.dropWhile_cons, h] using ih
    · simp [List.dropWhile_cons, h]

theorem stripChars_append_nl (l : List Char) :
    stripChars (l ++ ['\n']) = stripChars l := by
  unfold stripChars
  rw [dropWhile_append_nl]
  by_cases h : (l.dropWhile isPySpace).isEmpty
  · rw [if_pos h, List.isEmpty_iff.mp h]
  · rw [if_neg h, List.reverse_append]
    simp [isPySpace]

theorem readlineChars_eq (l : List Char) :
    readlineChars l = firstLineChars l ∨ readlineChars l = firstLineChars l ++ ['\n'] := by
  induction l with
  | nil => left; rfl
  | cons c cs ih =>
    by_cases h : c = '\n'
    · subst h
      right
      simp [readlineChars, firstLineChars]
    · have e1 : readlineChars (c :: cs) = c :: readlineChars cs := by
        simp [readlineChars, h]
      have e2 : firstLineChars (c :: cs) = c :: firstLineChars cs := by
        simp [firstLineChars, List.takeWhile_cons, h]
      rw [e1, e2]
      rcases ih with h1 | h1
      · left; rw [h1]
      · right; rw [h1]; rfl

theorem pyStrip_readline_eq_firstLine (s : String) :
    pyStrip (pyReadline s) = pyStrip (firstLine s) := by
  show (⟨stripChars (readlineChars s.data)⟩ : String) = ⟨stripChars (firstLineChars s.data)⟩
  rcases readlineChars_eq s.data with h | h <;> rw [h]
  rw [stripChars_append_nl]

/-- Claim C7 is refuted at the sentinel content `"\nfoo"`: its first non-empty
line is `"foo"`, but `read_dir_id` reads only the first line (which strips to
empty) and returns `None`. -/
theorem c7_counterexample :
    read_dir_id (some "\nfoo") = none ∧
    read_identity_spec (some "\nfoo") = some "foo" ∧
    read_dir_id (some "\nfoo") ≠ read_identity_spec (some "\nfoo") := by
  refine ⟨by decide, by decide, by decide⟩

/-- Claim C7 (amended): reading a directory's identity returns the first line
of the sentinel file stripped of surrounding whitespace, or `None` — without
throwing — when the sentinel file is absent or its first line is blank.
(The source reads only the first line; a non-empty later line is ignored.) -/
theorem c7_read_first_line :
    read_dir_id none = none ∧
    ∀ s : String,
      read_dir_id (some s) =
        (if pyStrip (firstLine s) = "" then none else some (pyStrip (firstLine s))) := by
  refine ⟨rfl, fun s => ?_⟩
  show (let d := pyStrip (pyReadline s); if d = "" then none else some d) = _
  rw [pyStrip_readline_eq_firstLine]

/-- Claim C8: the claim (and the spec's error-handling design) requires an
existing-but-unreadable sentinel file to be treated as "no identity"; the
source guards only with `os.path.isfile` and has no `try`/`except`, so the
`open` error propagates and the run crashes.  The code contradicts the spec's
stated intent here: this is recorded as a code bug. -/
theorem c8_unreadable_propagates :
    read_dir_id_fs SentinelFile.unreadable = Except.error () ∧
    read_dir_id_fs SentinelFile.unreadable ≠ Except.ok none ∧
    read_dir_id_fs SentinelFile.absent = Except.ok none := by
  refine ⟨rfl, fun h => Except.noConfusion h, rfl⟩

/-! Exit status (claim C9). -/

/-- Claim C9: a completed run exits 0 exactly when no entry was skipped or
skipped-entry reporting was not requested, and non-zero exactly when at least
one entry was skipped and `--report-skipped` was given.  (The single-mark
branch returns `None`, which `sys.exit` maps to exit status 0, and skips
nothing.) -/
theorem c9_exit_code (opts : Options) (genId : String → String) (fs : FS) (r : RunResult)
    (h : main opts genId fs = Except.ok r) :
    (r.exitCode = 0 ↔ ¬(opts.report_skipped = true ∧ r.skipped ≠ [])) ∧
    (r.exitCode ≠ 0 ↔ (opts.report_skipped = true ∧ r.skipped ≠ [])) := by
  unfold main at h
  split at h
  · split at h
    · cases h
      simp
    · split at h
      · exact Except.noConfusion h
      · split at h
        · exact Except.noConfusion h
        · cases h
          simp
  · split at h
    · exact Except.noConfusion h
    · cases h
      rename_i s hs
      cases hb : (!s.skipped.isEmpty) && opts.report_skipped with
      | false =>
        have hnot : ¬(opts.report_skipped = true ∧ s.skipped ≠ []) := by
          intro hc
          have h0 : s.skipped.isEmpty = false := by
            cases hE : s.skipped.isEmpty
            · rfl
            · exact absurd (List.isEmpty_iff.mp hE) hc.2
          rw [h0, hc.1] at hb
          cases hb
        simp [hb, hnot]
      | true =>
        obtain ⟨h1, h2⟩ := Bool.and_eq_true_iff.mp hb
        have hpos : opts.report_skipped = true ∧ s.skipped ≠ [] := by
          refine ⟨h2, fun hc => ?_⟩
          rw [hc] at h1
          cases h1
        simp [hb, hpos]

/-- Witness for `c9_exit_code`, at the empty filesystem with default options. -/
theorem c9_witness :
    ((RunResult.mk 0 [] [] [] [] [] [] []).exitCode = 0 ↔
      ¬((Options.mk false false none false false false false).report_skipped = true ∧
        (RunResult.mk 0 [] [] [] [] [] [] []).skipped ≠ [])) ∧
    ((RunResult.mk 0 [] [] [] [] [] [] []).exitCode ≠ 0 ↔
      ((Options.mk false false none false false false false).report_skipped = true ∧
       (RunResult.mk 0 [] [] [] [] [] [] []).skipped ≠ [])) :=
  c9_exit_code (Options.mk false false none false false false false) (fun n => n) ⟨[], []⟩
    (RunResult.mk 0 [] [] [] [] [] [] []) rfl

/-! Sorting facts (claim C5). -/

theorem charListLe_iff : ∀ as bs : List Char,
    charListLe as bs = true ↔ ¬ List.Lex (fun c d : Char => c < d) bs as := by
  intro as
  induction as with
  | nil =>
    intro bs
    simp only [charListLe, true_iff]
    intro hlex
    cases hlex
  | cons a as ih =>
    intro bs
    cases bs with
    | nil =>
      simp only [charListLe]
      constructor
      · intro h; exact absurd h (by simp)
      · intro h; exact absurd List.Lex.nil h
    | cons b bs =>
      simp only [charListLe]
      by_cases h1 : a.toNat < b.toNat
      · rw [if_pos h1]
        simp only [true_iff]
        intro hlex
        cases hlex with
        | cons h' => exact absurd h1 (Nat.lt_irrefl _)
        | rel h' =>
          have hba : b.toNat < a.toNat := Char.lt_def.mp h'
          omega
      · rw [if_neg h1]
        by_cases h2 : b.toNat < a.toNat
        · rw [if_pos h2]
          constructor
          · intro h; exact absurd h (by simp)
          · intro h
            exact absurd (List.Lex.rel (Char.lt_def.mpr h2)) h
        · rw [if_neg h2]
          have heq3 : a.toNat = b.toNat := by omega
          have heq : a = b := Char.ext (UInt32.ext heq3)
          subst heq
          rw [ih bs]
          constructor
          · intro h hlex
            cases hlex with
            | cons h' => exact h h'
            | rel h' =>
              have hlt : a.toNat < a.toNat := Char.lt_def.mp h'
              exact absurd hlt (Nat.lt_irrefl _)
          · intro h hlex
            exact h (List.Lex.cons hlex)

theorem strLe_iff_le (a b : String) : strLe a b = true ↔ a ≤ b := by
  rw [String.le_iff_toList_le]
  have hnot : (a.toList ≤ b.toList) ↔ ¬ (b.toList < a.toList) := (not_lt).symm
  rw [hnot]
  exact charListLe_iff a.data b.data

theorem insertByName_perm (x : Entry) (l : List Entry) :
    (insertByName x l).Perm (x :: l) := by
  induction l with
  | nil => exact List.Perm.refl _
  | cons y ys ih =>
    by_cases h : nameLe x y
    · simp [insertByName, h]
    · simp only [insertByName, if_neg h]
      exact (ih.cons y).trans (List.Perm.swap x y ys)

theorem sortByName_perm (l : List Entry) : (sortByName l).Perm l := by
  induction l with
  | nil => exact List.Perm.refl _
  | cons x xs ih => exact (insertByName_perm x (sortByName xs)).trans (ih.cons x)

theorem insertByName_pairwise (x : Entry) (l : List Entry)
    (h : l.Pairwise entryLe) : (insertByName x l).Pairwise entryLe := by
  induction l with
  | nil => simp [insertByName, entryLe]
  | cons y ys ih =>
    rcases List.pairwise_cons.mp h with ⟨hy, hys⟩
    by_cases hle : nameLe x y
    · have hxy : x.name ≤ y.name := (strLe_iff_le _ _).mp hle
      simp only [insertByName, if_pos hle]
      refine List.pairwise_cons.mpr ⟨?_, h⟩
      intro z hz
      cases hz with
      | head => exact hxy
      | tail _ hz => exact le_trans hxy (hy z hz)
    · have hyx : y.name ≤ x.name := by
        have hnot : ¬ x.name ≤ y.name := by
          intro hc
          exact hle ((strLe_iff_le _ _).mpr hc)
        exact le_of_not_le hnot
      simp only [insertByName, if_neg hle]
      refine List.pairwise_cons.mpr ⟨?_, ih hys⟩
      intro z hz
      have hz' : z ∈ x :: ys := (insertByName_perm x ys).mem_iff.mp hz
      cases hz' with
      | head => exact hyx
      | tail _ hz' => exact hy z hz'

theorem sortByName_pairwise (l : List Entry) : (sortByName l).Pairwise entryLe := by
  induction l with
  | nil => exact List.Pairwise.nil
  | cons x xs ih => exact insertByName_pairwise x _ ih

theorem sortByName_eq_of_perm (l₁ l₂ : List Entry) (hp : l₁.Perm l₂)
    (hn : (l₂.map Entry.name).Nodup) : sortByName l₁ = sortByName l₂ := by
  have p1 : (sortByName l₁).Perm (sortByName l₂) :=
    (sortByName_perm l₁).trans (hp.trans (sortByName_perm l₂).symm)
  have hnodup : ((sortByName l₂).map Entry.name).Nodup :=
    (((sortByName_perm l₂).map Entry.name).nodup_iff).mpr hn
  have hlt : ∀ l : List Entry, (l.map Entry.name).Nodup → l.Pairwise entryLe →
      l.Pairwise (fun a b => a.name < b.name) := by
    intro l h1 h2
    have hne : l.Pairwise (fun a b => a.name ≠ b.name) :=
      (List.pairwise_map).mp h1
    exact (h2.and hne).imp (fun h => lt_of_le_of_ne h.1 h.2)
  haveI : IsAntisymm Entry (fun a b => a.name < b.name) :=
    ⟨fun a b h1 h2 => absurd (lt_trans h1 h2) (lt_irrefl _)⟩
  exact List.eq_of_perm_of_sorted p1
    (hlt _ ((p1.map Entry.name).nodup_iff.mpr hnodup) (sortByName_pairwise l₁))
    (hlt _ hnodup (sortByName_pairwise l₂))

/-- Inversion principle for one successful scan-loop iteration: exactly one of
the source's branches (lines 224-261) applies, with the listed conditions and
outputs. -/
theorem step_cases (opts : Options) (genId : String → String)
    (idx : List (String × String)) (arch : Root) (w : Entry) (o : StepOut)
    (h : step opts genId idx arch w = Except.ok o) :
    (read_dir_id w.awid = none ∧ existsName arch w.name = true ∧ opts.mark_new = true ∧
      opts.dry_run = true ∧ o = ⟨.NEW_CONFLICT_OVERWRITE, some w.name, w, arch, none⟩) ∨
    (∃ arch', read_dir_id w.awid = none ∧ existsName arch w.name = true ∧
      opts.mark_new = true ∧ opts.dry_run = false ∧
      writeAwidFile arch w.name (genId w.name) = Except.ok arch' ∧
      o = ⟨.NEW_CONFLICT_OVERWRITE, some w.name, { w with awid := some (genId w.name) },
           arch', none⟩) ∨
    (read_dir_id w.awid = none ∧ existsName arch w.name = true ∧ opts.mark_new = false ∧
      o = ⟨.NEW_CONFLICT_SKIP, none, w, arch, none⟩) ∨
    (read_dir_id w.awid = none ∧ existsName arch w.name = false ∧ opts.dry_run = true ∧
      o = ⟨.NEW, some w.name, w, arch, none⟩) ∨
    (read_dir_id w.awid = none ∧ existsName arch w.name = false ∧ opts.dry_run = false ∧
      o = ⟨.NEW, some w.name, { w with awid := some (genId w.name) }, arch, none⟩) ∨
    (∃ i b, read_dir_id w.awid = some i ∧ lookupId idx i = some b ∧ b ≠ w.name ∧
      opts.dry_run = true ∧ o = ⟨.RENAMED b, none, w, arch, none⟩) ∨
    (∃ i b arch', read_dir_id w.awid = some i ∧ lookupId idx i = some b ∧ b ≠ w.name ∧
      opts.dry_run = false ∧ renameEntry arch b w.name = Except.ok arch' ∧
      o = ⟨.RENAMED b, some w.name, w, arch', some (b, w.name)⟩) ∨
    (∃ i, read_dir_id w.awid = some i ∧ lookupId idx i = some w.name ∧
      o = ⟨.RESYNC, some w.name, w, arch, none⟩) ∨
    (∃ i, read_dir_id w.awid = some i ∧ lookupId idx i = none ∧
      existsName arch w.name = true ∧ o = ⟨.CONFLICT_SKIP, none, w, arch, none⟩) ∨
    (∃ i, read_dir_id w.awid = some i ∧ lookupId idx i = none ∧
      existsName arch w.name = false ∧ o = ⟨.RESTORE, some w.name, w, arch, none⟩) := by
  unfold step at h
  split at h
  · rename_i hid
    split at h
    · rename_i hex
      split at h
      · rename_i hmn
        split at h
        · rename_i hdry
          cases h
          exact Or.inl ⟨hid, hex, hmn, hdry, rfl⟩
        · rename_i hdry
          rw [Bool.not_eq_true] at hdry
          split at h
          · rename_i arch' hwa
            cases h
            exact Or.inr (Or.inl ⟨arch', hid, hex, hmn, hdry, hwa, rfl⟩)
          · exact Except.noConfusion h
      · rename_i hmn
        rw [Bool.not_eq_true] at hmn
        cases h
        exact Or.inr (Or.inr (Or.inl ⟨hid, hex, hmn, rfl⟩))
    · rename_i hex
      rw [Bool.not_eq_true] at hex
      split at h
      · rename_i hdry
        cases h
        exact Or.inr (Or.inr (Or.inr (Or.inl ⟨hid, hex, hdry, rfl⟩)))
      · rename_i hdry
        rw [Bool.not_eq_true] at hdry
        cases h
        exact Or.inr (Or.inr (Or.inr (Or.inr (Or.inl ⟨hid, hex, hdry, rfl⟩))))
  · rename_i i hid
    split at h
    · rename_i b hlook
      split at h
      · rename_i hbne
        have hne : b ≠ w.name := bne_iff_ne.mp hbne
        split at h
        · rename_i hdry
          cases h
          exact Or.inr (Or.inr (Or.inr (Or.inr (Or.inr (Or.inl
            ⟨i, b, hid, hlook, hne, hdry, rfl⟩)))))
        · rename_i hdry
          rw [Bool.not_eq_true] at hdry
          split at h
          · rename_i arch' hre
            cases h
            exact Or.inr (Or.inr (Or.inr (Or.inr (Or.inr (Or.inr (Or.inl
              ⟨i, b, arch', hid, hlook, hne, hdry, hre, rfl⟩))))))
          · exact Except.noConfusion h
      · rename_i hbne
        have hbe : b = w.name := by
          have := mt bne_iff_ne.mpr hbne
          exact not_not.mp this
        subst hbe
        cases h
        exact Or.inr (Or.inr (Or.inr (Or.inr (Or.inr (Or.inr (Or.inr (Or.inl
          ⟨i, hid, hlook, rfl⟩)))))))
    · rename_i hlook
      split at h
      · rename_i hex
        cases h
        exact Or.inr (Or.inr (Or.inr (Or.inr (Or.inr (Or.inr (Or.inr (Or.inr (Or.inl
          ⟨i, hid, hlook, hex, rfl⟩))))))))
      · rename_i hex
        rw [Bool.not_eq_true] at hex
        cases h
        exact Or.inr (Or.inr (Or.inr (Or.inr (Or.inr (Or.inr (Or.inr (Or.inr (Or.inr
          ⟨i, hid, hlook, hex, rfl⟩))))))))

/-- Targets in the plan always equal the work-subdirectory name: every branch
of the scan sets `archive_subdir` to `archive_base / work_dir.name` (a resync
pairs equal names, a rename targets the work name). -/
theorem step_target_eq (opts : Options) (genId : String → String)
    (idx : List (String × String)) (arch : Root) (w : Entry) (o : StepOut)
    (h : step opts genId idx arch w = Except.ok o) :
    o.target = none ∨ o.target = some w.name := by
  rcases step_cases opts genId idx arch w o h with
    ⟨_, _, _, _, rfl⟩ | ⟨a', _, _, _, _, _, rfl⟩ | ⟨_, _, _, rfl⟩ | ⟨_, _, _, rfl⟩ |
    ⟨_, _, _, rfl⟩ | ⟨i, b, _, _, _, _, rfl⟩ | ⟨i, b, a', _, _, _, _, _, rfl⟩ |
    ⟨i, _, _, rfl⟩ | ⟨i, _, _, _, rfl⟩ | ⟨i, _, _, _, rfl⟩ <;>
  simp

/-- The scan emits plan and skipped entries as subsequences of the scanned
work list, and processes work entries name-for-name. -/
theorem scanGo_sublists (opts : Options) (genId : String → String)
    (idx : List (String × String)) :
    ∀ (ws : List Entry) (arch : Root) (s : ScanResult),
      scanGo opts genId idx ws arch = Except.ok s →
      (s.plan.map Prod.fst).Sublist (ws.map Entry.name) ∧
      (s.skipped.map Prod.fst).Sublist (ws.map Entry.name) ∧
      s.workOut.map Entry.name = ws.map Entry.name := by
  intro ws
  induction ws with
  | nil =>
    intro arch s h
    cases h
    exact ⟨List.nil_sublist _, List.nil_sublist _, rfl⟩
  | cons w rest ih =>
    intro arch s h
    unfold scanGo at h
    split at h
    · exact Except.noConfusion h
    · rename_i o ho
      split at h
      · exact Except.noConfusion h
      · rename_i r hr
        obtain ⟨hp, hsk, hw⟩ := ih o.archive r hr
        have hname : o.workEntry.name = w.name := by
          rcases step_cases opts genId idx arch w o ho with
            ⟨_, _, _, _, rfl⟩ | ⟨a', _, _, _, _, _, rfl⟩ | ⟨_, _, _, rfl⟩ | ⟨_, _, _, rfl⟩ |
            ⟨_, _, _, rfl⟩ | ⟨i, b, _, _, _, _, rfl⟩ | ⟨i, b, a', _, _, _, _, _, rfl⟩ |
            ⟨i, _, _, rfl⟩ | ⟨i, _, _, _, rfl⟩ | ⟨i, _, _, _, rfl⟩ <;> rfl
        cases h
        refine ⟨?_, ?_, ?_⟩
        · cases ht : o.target with
          | none => simpa [ht] using hp.cons w.name
          | some t => simpa [ht] using hp.cons₂ w.name
        · cases ht : o.target with
          | none => simpa [ht] using hsk.cons₂ w.name
          | some t => simpa [ht] using hsk.cons w.name
        · simpa [hname] using hw

/-- Claim C5: in every completed run, the sync plan and the skipped list are
each ordered lexicographically by work-subdirectory name, and (given the
filesystem invariant that sibling names are distinct) the classification
outputs do not depend on the order in which the filesystem enumerates the work
root. -/
theorem c5_deterministic_order (opts : Options) (genId : String → String) (fs : FS)
    (r : RunResult) (h : main opts genId fs = Except.ok r) :
    List.Sorted (fun a b : String => a ≤ b) (r.plan.map Prod.fst) ∧
    List.Sorted (fun a b : String => a ≤ b) (r.skipped.map Prod.fst) ∧
    (∀ fs₂ r₂, fs₂.archive = fs.archive → fs₂.work.Perm fs.work →
      namesNodup fs.work →
      main opts genId fs₂ = Except.ok r₂ →
      r₂.plan = r.plan ∧ r₂.skipped = r.skipped ∧ r₂.actions = r.actions) := by
  by_cases hmk : markRequested opts.mark = true
  · have hr : r.plan = [] ∧ r.skipped = [] ∧ r.actions = [] := by
      unfold main at h
      rw [if_pos hmk] at h
      split at h
      · cases h; exact ⟨rfl, rfl, rfl⟩
      · split at h
        · exact Except.noConfusion h
        · split at h
          · exact Except.noConfusion h
          · cases h; exact ⟨rfl, rfl, rfl⟩
    refine ⟨by simp [hr.1], by simp [hr.2.1], ?_⟩
    intro fs₂ r₂ _ _ _ h₂
    have hr₂ : r₂.plan = [] ∧ r₂.skipped = [] ∧ r₂.actions = [] := by
      unfold main at h₂
      rw [if_pos hmk] at h₂
      split at h₂
      · cases h₂; exact ⟨rfl, rfl, rfl⟩
      · split at h₂
        · exact Except.noConfusion h₂
        · split at h₂
          · exact Except.noConfusion h₂
          · cases h₂; exact ⟨rfl, rfl, rfl⟩
    rw [hr₂.1, hr₂.2.1, hr₂.2.2, hr.1, hr.2.1, hr.2.2]
    exact ⟨rfl, rfl, rfl⟩
  · have sorted_names : List.Sorted (fun a b : String => a ≤ b)
        ((sortByName (workDirs fs)).map Entry.name) :=
      (List.pairwise_map).mpr (sortByName_pairwise (workDirs fs))
    unfold main at h
    rw [if_neg hmk] at h
    split at h
    · exact Except.noConfusion h
    · rename_i s hs
      obtain ⟨hp, hsk, _⟩ := scanGo_sublists opts genId _ _ _ _ hs
      cases h
      refine ⟨sorted_names.sublist hp, sorted_names.sublist hsk, ?_⟩
      intro fs₂ r₂ harch hperm hnodup h₂
      unfold main at h₂
      rw [if_neg hmk] at h₂
      have hsort : sortByName (workDirs fs₂) = sortByName (workDirs fs) := by
        apply sortByName_eq_of_perm
        · exact hperm.filter _
        · have hsub : ((fs.work.filter (fun e => e.isDir)).map Entry.name).Sublist
              (fs.work.map Entry.name) := (List.filter_sublist _).map Entry.name
          exact hnodup.sublist hsub
      split at h₂
      · rename_i hs₂
        rw [harch, hsort, hs] at hs₂
        exact Except.noConfusion hs₂
      · rename_i s₂ hs₂
        rw [harch, hsort, hs] at hs₂
        cases hs₂
        cases h₂
        exact ⟨rfl, rfl, rfl⟩

/-- Witness for `c5_deterministic_order` at a two-directory work root. -/
theorem c5_witness :
    List.Sorted (fun a b : String => a ≤ b)
      ((RunResult.mk 0 [("a", Action.RESTORE), ("b", Action.RESTORE)]
          [("a", "a"), ("b", "b")] [] []
          [RsyncCall.mk "a" "a" false, RsyncCall.mk "b" "b" false]
          [Entry.mk "b" true (some "Y"), Entry.mk "a" true (some "X")]
          [Entry.mk "a" true (some "X"), Entry.mk "b" true (some "Y")]).plan.map Prod.fst) := by
  have h := c5_deterministic_order (Options.mk false false none false false false false)
    (fun n => n)
    ⟨[Entry.mk "b" true (some "Y"), Entry.mk "a" true (some "X")], []⟩
    (RunResult.mk 0 [("a", Action.RESTORE), ("b", Action.RESTORE)]
      [("a", "a"), ("b", "b")] [] []
      [RsyncCall.mk "a" "a" false, RsyncCall.mk "b" "b" false]
      [Entry.mk "b" true (some "Y"), Entry.mk "a" true (some "X")]
      [Entry.mk "a" true (some "X"), Entry.mk "b" true (some "Y")])
    (by rfl)
  exact h.1

/-! Per-subdirectory classification (claims C4 and C10). -/

theorem existsName_of_mem {arch : Root} {e : Entry} {nm : String}
    (he : e ∈ arch) (hn : e.name = nm) : existsName arch nm = true := by
  unfold existsName
  rw [List.any_eq_true]
  exact ⟨e, he, by simp [hn]⟩

/-- Every work subdirectory of a completed run was processed by `step` against
the archive state current at its turn, and the step's outputs appear in the
run's accumulated lists. -/
theorem scanGo_mem (opts : Options) (genId : String → String) (idx : List (String × String)) :
    ∀ (ws : List Entry) (arch : Root) (s : ScanResult) (w : Entry),
      scanGo opts genId idx ws arch = Except.ok s → w ∈ ws →
      ∃ arch' o, step opts genId idx arch' w = Except.ok o ∧
        (w.name, o.action) ∈ s.actions ∧
        (∀ t, o.target = some t → (w.name, t) ∈ s.plan) ∧
        (o.target = none → (w.name, o.action) ∈ s.skipped) ∧
        (∀ p, o.renamedOp = some p → p ∈ s.renames) := by
  intro ws
  induction ws with
  | nil =>
    intro arch s w h hw
    cases hw
  | cons v rest ih =>
    intro arch s w h hw
    unfold scanGo at h
    split at h
    · exact Except.noConfusion h
    · rename_i o ho
      split at h
      · exact Except.noConfusion h
      · rename_i r hr
        cases h
        cases hw with
        | head =>
          refine ⟨arch, o, ho, List.mem_cons_self _ _, ?_, ?_, ?_⟩
          · intro t ht
            simp [ht]
          · intro ht
            simp [ht]
          · intro p hp
            simp [hp]
        | tail _ hw' =>
          obtain ⟨arch', o', ho', ha, hp, hsk, hre⟩ := ih o.archive r w hr hw'
          refine ⟨arch', o', ho', List.mem_cons_of_mem _ ha, ?_, ?_, ?_⟩
          · intro t ht
            cases hot : o.target <;> simp [hot, hp t ht]
          · intro ht
            cases hot : o.target <;> simp [hot, hsk ht]
          · intro p hpr
            cases hor : o.renamedOp <;> simp [hor, hre p hpr]

/-- Claim C4: in a real (non-dry) run, an unmarked work subdirectory with no
same-named archive entry is classified `NEW`, gets a fresh marker written into
it alone (the archive is untouched) and the sync target `archive_root/name`;
with a same-named archive entry and no `--mark-new` it is classified
`NEW_CONFLICT_SKIP` and nothing is mutated; with `--mark-new` it is classified
`NEW_CONFLICT_OVERWRITE` and one identical fresh marker is written into both
the work and the archive directory.  The final conjunct ties `step` to the
run: `main` processes every work subdirectory through `step`. -/
theorem c4_new_classification (opts : Options) (genId : String → String)
    (idx : List (String × String)) (arch : Root) (w : Entry)
    (hdry : opts.dry_run = false) (hid : read_dir_id w.awid = none) :
    (existsName arch w.name = false →
      step opts genId idx arch w =
        Except.ok ⟨.NEW, some w.name, { w with awid := some (genId w.name) }, arch, none⟩) ∧
    (existsName arch w.name = true → opts.mark_new = false →
      step opts genId idx arch w = Except.ok ⟨.NEW_CONFLICT_SKIP, none, w, arch, none⟩) ∧
    (existsName arch w.name = true → opts.mark_new = true → isDirNamed arch w.name = true →
      step opts genId idx arch w =
        Except.ok ⟨.NEW_CONFLICT_OVERWRITE, some w.name,
                   { w with awid := some (genId w.name) },
                   setAwid arch w.name (genId w.name), none⟩) ∧
    (∀ fs r, markRequested opts.mark = false → main opts genId fs = Except.ok r →
      w ∈ sortByName (workDirs fs) →
      ∃ archAt o, step opts genId (knownArchiveDirs fs.archive) archAt w = Except.ok o ∧
        (w.name, o.action) ∈ r.actions) := by
  refine ⟨?_, ?_, ?_, ?_⟩
  · intro hex
    simp [step, hid, hex, hdry]
  · intro hex hmn
    simp [step, hid, hex, hmn]
  · intro hex hmn hdirn
    simp [step, hid, hex, hmn, hdry, writeAwidFile, hdirn]
  · intro fs r hmk h hw
    unfold main at h
    rw [if_neg (by rw [hmk]; exact Bool.false_ne_true)] at h
    split at h
    · exact Except.noConfusion h
    · rename_i s hs
      cases h
      obtain ⟨archAt, o, ho, ha, _, _, _⟩ := scanGo_mem opts genId _ _ _ _ w hs hw
      exact ⟨archAt, o, ho, ha⟩

/-- Witness for `c4_new_classification`: a fresh unmarked directory `d`
against an empty archive is marked and targeted at `archive_root/d`. -/
theorem c4_witness :
    step (Options.mk false false none false false false false) (fun n => "g-" ++ n) []
      [] (Entry.mk "d" true none) =
    Except.ok ⟨Action.NEW, some "d", Entry.mk "d" true (some "g-d"), [], none⟩ :=
  (c4_new_classification (Options.mk false false none false false false false)
    (fun n => "g-" ++ n) [] [] (Entry.mk "d" true none) rfl rfl).1 rfl

/-- Claim C10: the same-name conflict checks use `Path.exists()`, which is
satisfied by any entry regardless of directory-ness.  For every archive entry
`e` bearing the work directory's name — in particular a non-directory `e` —
an unmarked work directory without `--mark-new` is classified
`NEW_CONFLICT_SKIP`, and a marked work directory whose identity is absent from
the index is classified `CONFLICT_SKIP`, never `NEW`/`RESTORE`. -/
theorem c10_conflict_checks_existence (opts : Options) (genId : String → String)
    (idx : List (String × String)) (w e : Entry) (hname : e.name = w.name) :
    (∀ arch, e ∈ arch → read_dir_id w.awid = none → opts.mark_new = false →
      step opts genId idx arch w = Except.ok ⟨.NEW_CONFLICT_SKIP, none, w, arch, none⟩) ∧
    (∀ arch i, e ∈ arch → read_dir_id w.awid = some i → lookupId idx i = none →
      step opts genId idx arch w = Except.ok ⟨.CONFLICT_SKIP, none, w, arch, none⟩) := by
  constructor
  · intro arch he hid hmn
    have hex := existsName_of_mem he hname
    simp [step, hid, hex, hmn]
  · intro arch i he hid hlook
    have hex := existsName_of_mem he hname
    simp [step, hid, hex, hlook]

/-- Witness for `c10_conflict_checks_existence`: a regular file `d` in the
archive root blocks an unmarked work directory `d` exactly like a directory
would. -/
theorem c10_witness :
    step (Options.mk false false none false false false false) (fun n => n) []
      [Entry.mk "d" false none] (Entry.mk "d" true none) =
    Except.ok ⟨Action.NEW_CONFLICT_SKIP, none, Entry.mk "d" true none,
               [Entry.mk "d" false none], none⟩ :=
  (c10_conflict_checks_existence (Options.mk false false none false false false false)
      (fun n => n) [] (Entry.mk "d" true none) (Entry.mk "d" false none) rfl).1
    [Entry.mk "d" false none] (List.mem_cons_self _ _) rfl rfl

/-! Rename propagation (claim C2) and single-mark mode (claim C6). -/

theorem renameEntry_ok {root : Root} {src dst : String} {root' : Root}
    (h : renameEntry root src dst = Except.ok root') :
    existsName root src = true ∧ existsName root dst = false ∧
    root' = root.map (fun e => if e.name = src then { e with name := dst } else e) := by
  unfold renameEntry at h
  split at h
  · rename_i hsrc
    split at h
    · exact Except.noConfusion h
    · rename_i hdst
      rw [Bool.not_eq_true] at hdst
      cases h
      exact ⟨hsrc, hdst, rfl⟩
  · exact Except.noConfusion h

theorem writeAwidFile_ok {root : Root} {nm v : String} {root' : Root}
    (h : writeAwidFile root nm v = Except.ok root') :
    isDirNamed root nm = true ∧ root' = setAwid root nm v := by
  unfold writeAwidFile at h
  split at h
  · rename_i hd
    cases h
    exact ⟨hd, rfl⟩
  · exact Except.noConfusion h

/-- Claim C2: when a marked work subdirectory's identity is found in the
archive index under a different name, a real run classifies it `RENAMED`,
renames the archive subdirectory (during the scan, i.e. before the mirror
phase runs) and uses the renamed path (the work name) as the sync target; the
step only succeeds when the rename succeeded, and a rename failure (e.g. the
destination exists) propagates as an error rather than being skipped. -/
theorem c2_rename_propagation (opts : Options) (genId : String → String) (fs : FS)
    (w : Entry) (i b : String)
    (hdry : opts.dry_run = false)
    (hmk : markRequested opts.mark = false)
    (hw : w ∈ sortByName (workDirs fs))
    (hid : read_dir_id w.awid = some i)
    (hlook : lookupId (knownArchiveDirs fs.archive) i = some b)
    (hne : b ≠ w.name) :
    (∀ r, main opts genId fs = Except.ok r →
      (w.name, Action.RENAMED b) ∈ r.actions ∧
      (b, w.name) ∈ r.renames ∧
      (w.name, w.name) ∈ r.plan) ∧
    (∀ arch o, step opts genId (knownArchiveDirs fs.archive) arch w = Except.ok o →
      existsName arch b = true ∧ existsName arch w.name = false ∧
      renameEntry arch b w.name = Except.ok o.archive ∧
      o.action = Action.RENAMED b ∧ o.target = some w.name ∧
      o.renamedOp = some (b, w.name)) ∧
    (∀ arch, existsName arch w.name = true →
      ∃ msg, step opts genId (knownArchiveDirs fs.archive) arch w = Except.error msg) := by
  have hbne : (b != w.name) = true := bne_iff_ne.mpr hne
  refine ⟨?_, ?_, ?_⟩
  · intro r h
    unfold main at h
    rw [if_neg (by rw [hmk]; exact Bool.false_ne_true)] at h
    split at h
    · exact Except.noConfusion h
    · rename_i s hs
      cases h
      obtain ⟨archAt, o, ho, ha, hpl, _, hre⟩ :=
        scanGo_mem opts genId _ _ _ _ w hs hw
      rcases step_cases opts genId _ archAt w o ho with
        ⟨h1, _⟩ | ⟨a', h1, _⟩ | ⟨h1, _⟩ | ⟨h1, _⟩ | ⟨h1, _⟩ |
        ⟨i', b', h1, h2, h3, h4, h5⟩ | ⟨i', b', a', h1, h2, h3, h4, h5, h6⟩ |
        ⟨i', h1, h2, h3⟩ | ⟨i', h1, h2, h3, h4⟩ | ⟨i', h1, h2, h3, h4⟩
      · rw [hid] at h1; exact Option.noConfusion h1
      · rw [hid] at h1; exact Option.noConfusion h1
      · rw [hid] at h1; exact Option.noConfusion h1
      · rw [hid] at h1; exact Option.noConfusion h1
      · rw [hid] at h1; exact Option.noConfusion h1
      · rw [hid] at h1
        cases h1
        rw [hdry] at h4
        exact Bool.noConfusion h4
      · rw [hid] at h1
        cases h1
        rw [hlook] at h2
        cases h2
        subst h6
        exact ⟨ha, hre _ rfl, hpl _ rfl⟩
      · rw [hid] at h1
        cases h1
        rw [hlook] at h2
        cases h2
        exact absurd rfl hne
      · rw [hid] at h1
        cases h1
        rw [hlook] at h2
        exact Option.noConfusion h2
      · rw [hid] at h1
        cases h1
        rw [hlook] at h2
        exact Option.noConfusion h2
  · intro arch o ho
    rcases step_cases opts genId _ arch w o ho with
      ⟨h1, _⟩ | ⟨a', h1, _⟩ | ⟨h1, _⟩ | ⟨h1, _⟩ | ⟨h1, _⟩ |
      ⟨i', b', h1, h2, h3, h4, h5⟩ | ⟨i', b', a', h1, h2, h3, h4, h5, h6⟩ |
      ⟨i', h1, h2, h3⟩ | ⟨i', h1, h2, h3, h4⟩ | ⟨i', h1, h2, h3, h4⟩
    · rw [hid] at h1; exact Option.noConfusion h1
    · rw [hid] at h1; exact Option.noConfusion h1
    · rw [hid] at h1; exact Option.noConfusion h1
    · rw [hid] at h1; exact Option.noConfusion h1
    · rw [hid] at h1; exact Option.noConfusion h1
    · rw [hid] at h1
      cases h1
      rw [hdry] at h4
      exact Bool.noConfusion h4
    · rw [hid] at h1
      cases h1
      rw [hlook] at h2
      cases h2
      subst h6
      obtain ⟨hsrc, hdst, _⟩ := renameEntry_ok h5
      exact ⟨hsrc, hdst, h5, rfl, rfl, rfl⟩
    · rw [hid] at h1
      cases h1
      rw [hlook] at h2
      cases h2
      exact absurd rfl hne
    · rw [hid] at h1
      cases h1
      rw [hlook] at h2
      exact Option.noConfusion h2
    · rw [hid] at h1
      cases h1
      rw [hlook] at h2
      exact Option.noConfusion h2
  · intro arch hex
    cases hre : renameEntry arch b w.name with
    | ok a' =>
      obtain ⟨_, hdst, _⟩ := renameEntry_ok hre
      rw [hex] at hdst
      exact Bool.noConfusion hdst
    | error msg =>
      refine ⟨msg, ?_⟩
      simp [step, hid, hlook, hbne, hdry, hre]

/-- Witness for `c2_rename_propagation`: work `a` marked `X`, archive `b`
marked `X`; the run renames `b` to `a` and syncs `a` to the renamed path. -/
theorem c2_witness :
    ("a", Action.RENAMED "b") ∈ ([("a", Action.RENAMED "b")] : List (String × Action)) ∧
    ("b", "a") ∈ ([("b", "a")] : List (String × String)) ∧
    ("a", "a") ∈ ([("a", "a")] : List (String × String)) := by
  have h := (c2_rename_propagation (Options.mk false false none false false false false)
      (fun n => n) ⟨[Entry.mk "a" true (some "X")], [Entry.mk "b" true (some "X")]⟩
      (Entry.mk "a" true (some "X")) "X" "b"
      rfl rfl (by decide) (by decide) (by decide) (by decide)).1
    (RunResult.mk 0 [("a", Action.RENAMED "b")] [("a", "a")] [] [("b", "a")]
      [RsyncCall.mk "a" "a" false]
      [Entry.mk "a" true (some "X")] [Entry.mk "a" true (some "X")])
    (by rfl)
  exact ⟨h.1, h.2.1, h.2.2⟩

/-- Claim C6 is refuted at a state where `work/m` exists but `archive/m` does
not: the source calls `mark_dir(args, work/m, archive/m)` unconditionally, so
the archive-side `open` fails and the error propagates, where the claim
expects the archive-side write to be skipped and the run to terminate
normally. -/
theorem c6_counterexample :
    main (Options.mk false false (some "m") false false false false) (fun n => n)
      ⟨[Entry.mk "m" true none], []⟩ =
    Except.error "open .awid for write failed under: m" := by rfl

/-- Claim C6 (amended): the single-mark branch performs no archive scan and no
sync — it emits no classification, no plan entry, no skipped entry, no rename
and no rsync invocation — generates one marker and, in a real run, writes it
into both `work_root/m` and `archive_root/m` unconditionally, then terminates
with exit code 0.  If the archive-side directory is missing the write fails
and the error propagates (the source does not check archive-side existence,
contrary to the claim). -/
theorem c6_mark_single (opts : Options) (genId : String → String) (fs : FS) (m : String)
    (hm : opts.mark = some m) (hne : m ≠ "") :
    (∀ r, main opts genId fs = Except.ok r →
      r.actions = [] ∧ r.plan = [] ∧ r.skipped = [] ∧ r.renames = [] ∧
      r.rsyncCalls = [] ∧ r.exitCode = 0 ∧
      (opts.dry_run = true → r.work = fs.work ∧ r.archive = fs.archive) ∧
      (opts.dry_run = false →
        isDirNamed fs.work m = true ∧ isDirNamed fs.archive m = true ∧
        r.work = setAwid fs.work m (genId m) ∧
        r.archive = setAwid fs.archive m (genId m))) ∧
    (opts.dry_run = false → isDirNamed fs.archive m = false →
      ∃ msg, main opts genId fs = Except.error msg) := by
  have hmr : markRequested opts.mark = true := by
    rw [hm]
    exact bne_iff_ne.mpr hne
  constructor
  · intro r h
    unfold main at h
    rw [if_pos hmr, hm] at h
    split at h
    · rename_i hd
      cases h
      refine ⟨rfl, rfl, rfl, rfl, rfl, rfl, fun _ => ⟨rfl, rfl⟩, fun hd' => ?_⟩
      rw [hd] at hd'
      exact Bool.noConfusion hd'
    · rename_i hd
      rw [Bool.not_eq_true] at hd
      split at h
      · exact Except.noConfusion h
      · rename_i work' hwk
        split at h
        · exact Except.noConfusion h
        · rename_i archive' hac
          cases h
          obtain ⟨hd1, he1⟩ := writeAwidFile_ok hwk
          obtain ⟨hd2, he2⟩ := writeAwidFile_ok hac
          refine ⟨rfl, rfl, rfl, rfl, rfl, rfl, fun hc => ?_, fun _ => ?_⟩
          · rw [hd] at hc
            exact Bool.noConfusion hc
          · simp only [Option.getD] at hd1 hd2 he1 he2
            exact ⟨hd1, hd2, he1, he2⟩
  · intro hdry hmiss
    unfold main
    rw [if_pos hmr, hm, hdry]
    simp only [Bool.false_eq_true, if_false]
    cases hwk : writeAwidFile fs.work (Option.getD (some m) "") (genId (Option.getD (some m) "")) with
    | error msg => exact ⟨msg, rfl⟩
    | ok work' =>
      refine ⟨"open .awid for write failed under: " ++ m, ?_⟩
      have : writeAwidFile fs.archive (Option.getD (some m) "")
          (genId (Option.getD (some m) "")) =
          Except.error ("open .awid for write failed under: " ++ m) := by
        unfold writeAwidFile
        simp only [Option.getD]
        rw [hmiss]
        simp
      rw [this]

/-- Witness for `c6_mark_single`: marking `m` when it exists on both sides
writes one shared marker and performs no scan or sync. -/
theorem c6_witness :
    (RunResult.mk 0 [] [] [] [] []
        [Entry.mk "m" true (some "id-m")] [Entry.mk "m" true (some "id-m")]).actions = [] ∧
    (RunResult.mk 0 [] [] [] [] []
        [Entry.mk "m" true (some "id-m")] [Entry.mk "m" true (some "id-m")]).rsyncCalls = [] := by
  have h := (c6_mark_single (Options.mk false false (some "m") false false false false)
      (fun n => "id-" ++ n) ⟨[Entry.mk "m" true none], [Entry.mk "m" true none]⟩ "m"
      rfl (by decide)).1
    (RunResult.mk 0 [] [] [] [] []
      [Entry.mk "m" true (some "id-m")] [Entry.mk "m" true (some "id-m")])
    (by rfl)
  exact ⟨h.1, h.2.2.2.2.1⟩

/-! Dry-run behaviour (claim C1). -/

/-- Under `--dry-run` every branch of the scan loop is read-only: the step
succeeds, the work entry and archive root are returned untouched and no rename
is performed. -/
theorem step_dry (opts : Options) (genId : String → String) (idx : List (String × String))
    (arch : Root) (w : Entry) (hdry : opts.dry_run = true) :
    ∃ a t, step opts genId idx arch w = Except.ok ⟨a, t, w, arch, none⟩ := by
  cases hid : read_dir_id w.awid with
  | none =>
    cases hex : existsName arch w.name with
    | true =>
      cases hmn : opts.mark_new with
      | true =>
        exact ⟨Action.NEW_CONFLICT_OVERWRITE, some w.name, by simp [step, hid, hex, hmn, hdry]⟩
      | false =>
        exact ⟨Action.NEW_CONFLICT_SKIP, none, by simp [step, hid, hex, hmn]⟩
    | false =>
      exact ⟨Action.NEW, some w.name, by simp [step, hid, hex, hdry]⟩
  | some i =>
    cases hlook : lookupId idx i with
    | some b =>
      cases hbe : b != w.name with
      | true =>
        exact ⟨Action.RENAMED b, none, by simp [step, hid, hlook, hbe, hdry]⟩
      | false =>
        exact ⟨Action.RESYNC, some b, by simp [step, hid, hlook, hbe]⟩
    | none =>
      cases hex : existsName arch w.name with
      | true =>
        exact ⟨Action.CONFLICT_SKIP, none, by simp [step, hid, hex, hlook]⟩
      | false =>
        exact ⟨Action.RESTORE, some w.name, by simp [step, hid, hex, hlook]⟩

/-- A dry-run scan succeeds and leaves the work entries and the archive root
untouched, performing no rename. -/
theorem scanGo_dry (opts : Options) (genId : String → String) (idx : List (String × String))
    (hdry : opts.dry_run = true) :
    ∀ (ws : List Entry) (arch : Root),
      ∃ s, scanGo opts genId idx ws arch = Except.ok s ∧
        s.workOut = ws ∧ s.archive = arch ∧ s.renames = [] := by
  intro ws
  induction ws with
  | nil =>
    intro arch
    exact ⟨⟨[], [], [], [], [], arch⟩, rfl, rfl, rfl, rfl⟩
  | cons w rest ih =>
    intro arch
    obtain ⟨a, t, hstep⟩ := step_dry opts genId idx arch w hdry
    obtain ⟨r, hr, hwo, har, hre⟩ := ih arch
    cases t with
    | some t' =>
      refine ⟨⟨(w.name, a) :: r.actions, (w.name, t') :: r.plan, r.skipped,
               r.renames, w :: r.workOut, r.archive⟩, ?_, ?_, ?_, ?_⟩
      · simp only [scanGo, hstep, hr]
      · simp [hwo]
      · simp [har]
      · simp [hre]
    | none =>
      refine ⟨⟨(w.name, a) :: r.actions, r.plan, (w.name, a) :: r.skipped,
               r.renames, w :: r.workOut, r.archive⟩, ?_, ?_, ?_, ?_⟩
      · simp only [scanGo, hstep, hr]
      · simp [hwo]
      · simp [har]
      · simp [hre]

/-- A dry-run mirror phase changes nothing and passes `--dry-run` to every
rsync invocation. -/
theorem mirrorPhase_dry (opts : Options) (workOut : List Entry) (hdry : opts.dry_run = true) :
    ∀ (plan : List (String × String)) (arch : Root),
      (mirrorPhase opts workOut plan arch).2 = arch ∧
      (∀ c ∈ (mirrorPhase opts workOut plan arch).1, c.dryRun = true) := by
  intro plan
  induction plan with
  | nil => intro arch; exact ⟨rfl, by intro c hc; cases hc⟩
  | cons p rest ih =>
    intro arch
    obtain ⟨pn, pt⟩ := p
    cases hts : opts.test_no_rsync with
    | true =>
      constructor
      · simp only [mirrorPhase, hts, if_pos rfl]
        exact (ih arch).1
      · simp only [mirrorPhase, hts, if_pos rfl]
        exact (ih arch).2
    | false =>
      have heff : rsyncEffect opts workOut arch pn pt = arch := by
        unfold rsyncEffect
        rw [hdry]
        simp
      constructor
      · simp only [mirrorPhase, hts]
        simp only [Bool.false_eq_true, if_false, heff]
        exact (ih arch).1
      · simp only [mirrorPhase, hts]
        simp only [Bool.false_eq_true, if_false, heff]
        intro c hc
        cases hc with
        | head => exact hdry
        | tail _ hc' => exact (ih arch).2 c hc'

/-- In a root with distinct names, `findNamed` at a member's name returns that
member. -/
theorem findNamed_eq_of_mem {l : List Entry} (hn : (l.map Entry.name).Nodup)
    {e : Entry} (he : e ∈ l) : findNamed l e.name = some e := by
  induction l with
  | nil => cases he
  | cons x xs ih =>
    rw [List.map_cons, List.nodup_cons] at hn
    cases he with
    | head => simp [findNamed]
    | tail _ he' =>
      by_cases hx : x.name = e.name
      · exact absurd (hx ▸ List.mem_map_of_mem Entry.name he') hn.1
      · have hbx : (x.name == e.name) = false := by simp [hx]
        have htail := ih hn.2 he'
        unfold findNamed at htail ⊢
        rw [List.find?_cons, hbx]
        exact htail

/-- Reassembling the work root from untouched processed entries is the
identity. -/
theorem mergeWork_eq_self (work : List Entry) (updated : List Entry)
    (hperm : updated.Perm (work.filter (fun e => e.isDir)))
    (hn : (work.map Entry.name).Nodup) :
    mergeWork work updated = work := by
  have hnup : (updated.map Entry.name).Nodup := by
    refine ((hperm.map Entry.name).nodup_iff).mpr ?_
    exact hn.sublist ((List.filter_sublist _).map Entry.name)
  unfold mergeWork
  have hid : ∀ e ∈ work,
      (if e.isDir then
        (match findNamed updated e.name with | some e' => e' | none => e)
       else e) = e := by
    intro e he
    by_cases hd : e.isDir
    · have hef : e ∈ updated := hperm.mem_iff.mpr (List.mem_filter.mpr ⟨he, by simp [hd]⟩)
      rw [if_pos hd, findNamed_eq_of_mem hnup hef]
    · rw [if_neg hd]
  calc work.map (fun e =>
        if e.isDir then
          (match findNamed updated e.name with | some e' => e' | none => e)
        else e)
      = work.map id := List.map_congr_left hid
    _ = work := List.map_id work

theorem existsName_shape {nm : String} :
    ∀ {a b : Root}, shape a = shape b → existsName a nm = existsName b nm := by
  intro a
  induction a with
  | nil =>
    intro b h
    cases b with
    | nil => rfl
    | cons y ys => exact absurd h (by simp [shape])
  | cons x xs ih =>
    intro b h
    cases b with
    | nil => exact absurd h (by simp [shape])
    | cons y ys =>
      unfold shape at h
      rw [List.map_cons, List.map_cons] at h
      injection h with h1 h2
      have hn : x.name = y.name := congrArg Prod.fst h1
      unfold existsName
      rw [List.any_cons, List.any_cons, hn]
      have hrest : existsName xs nm = existsName ys nm := ih h2
      unfold existsName at hrest
      rw [hrest]

theorem isDirNamed_shape {nm : String} :
    ∀ {a b : Root}, shape a = shape b → isDirNamed a nm = isDirNamed b nm := by
  intro a
  induction a with
  | nil =>
    intro b h
    cases b with
    | nil => rfl
    | cons y ys => exact absurd h (by simp [shape])
  | cons x xs ih =>
    intro b h
    cases b with
    | nil => exact absurd h (by simp [shape])
    | cons y ys =>
      unfold shape at h
      rw [List.map_cons, List.map_cons] at h
      injection h with h1 h2
      have hn : x.name = y.name := congrArg Prod.fst h1
      have hd : x.isDir = y.isDir := congrArg Prod.snd h1
      unfold isDirNamed findNamed
      rw [List.find?_cons, List.find?_cons, hn]
      cases hb : (y.name == nm) with
      | true => simp [hd]
      | false =>
        have hrest : isDirNamed xs nm = isDirNamed ys nm := ih h2
        unfold isDirNamed findNamed at hrest
        exact hrest

theorem shape_setAwid (root : Root) (nm v : String) :
    shape (setAwid root nm v) = shape root := by
  unfold shape setAwid
  rw [List.map_map]
  apply List.map_congr_left
  intro e _
  by_cases h : e.name = nm <;> simp [h]

/-- One real step that does not classify `RENAMED` is matched by the dry step
on any shape-equal archive: same action, same target, and the real step only
repaints sentinel contents (the shape is preserved). -/
theorem step_no_rename_dry (opts : Options) (genId : String → String)
    (idx : List (String × String)) (archR archD : Root) (w : Entry) (o : StepOut)
    (hdry : opts.dry_run = false)
    (hsh : shape archR = shape archD)
    (ho : step opts genId idx archR w = Except.ok o)
    (hnr : ∀ b, o.action ≠ Action.RENAMED b) :
    step { opts with dry_run := true } genId idx archD w =
      Except.ok ⟨o.action, o.target, w, archD, none⟩ ∧
    shape o.archive = shape archD := by
  rcases step_cases opts genId idx archR w o ho with
    ⟨h1, h2, h3, h4, h5⟩ | ⟨a', h1, h2, h3, h4, h5, h6⟩ | ⟨h1, h2, h3, h4⟩ |
    ⟨h1, h2, h3, h4⟩ | ⟨h1, h2, h3, h4⟩ |
    ⟨i', b', h1, h2, h3, h4, h5⟩ | ⟨i', b', a', h1, h2, h3, h4, h5, h6⟩ |
    ⟨i', h1, h2, h3⟩ | ⟨i', h1, h2, h3, h4⟩ | ⟨i', h1, h2, h3, h4⟩
  · rw [hdry] at h4; exact Bool.noConfusion h4
  · obtain ⟨hdn, hset⟩ := writeAwidFile_ok h5
    subst h6
    have hex : existsName archD w.name = true := by rw [← existsName_shape hsh]; exact h2
    constructor
    · simp [step, h1, hex, h3]
    · simp only
      rw [hset, shape_setAwid]
      exact hsh
  · subst h4
    have hex : existsName archD w.name = true := by rw [← existsName_shape hsh]; exact h2
    exact ⟨by simp [step, h1, hex, h3], hsh⟩
  · rw [hdry] at h3; exact Bool.noConfusion h3
  · subst h4
    have hex : existsName archD w.name = false := by rw [← existsName_shape hsh]; exact h2
    exact ⟨by simp [step, h1, hex, h3], hsh⟩
  · subst h5
    exact absurd rfl (hnr b')
  · subst h6
    exact absurd rfl (hnr b')
  · subst h3
    exact ⟨by simp [step, h1, h2], hsh⟩
  · subst h4
    have hex : existsName archD w.name = true := by rw [← existsName_shape hsh]; exact h3
    exact ⟨by simp [step, h1, h2, hex], hsh⟩
  · subst h4
    have hex : existsName archD w.name = false := by rw [← existsName_shape hsh]; exact h3
    exact ⟨by simp [step, h1, h2, hex], hsh⟩

/-- A real scan with no `RENAMED` classification is matched by the dry scan:
identical actions, plan and skipped lists. -/
theorem scanGo_no_rename_dry (opts : Options) (genId : String → String)
    (idx : List (String × String)) (hdry : opts.dry_run = false) :
    ∀ (ws : List Entry) (archR archD : Root) (s : ScanResult),
      shape archR = shape archD →
      scanGo opts genId idx ws archR = Except.ok s →
      (∀ n b, (n, Action.RENAMED b) ∉ s.actions) →
      ∃ s', scanGo { opts with dry_run := true } genId idx ws archD = Except.ok s' ∧
        s'.actions = s.actions ∧ s'.plan = s.plan ∧ s'.skipped = s.skipped := by
  intro ws
  induction ws with
  | nil =>
    intro archR archD s hsh h hnr
    cases h
    exact ⟨⟨[], [], [], [], [], archD⟩, rfl, rfl, rfl, rfl⟩
  | cons w rest ih =>
    intro archR archD s hsh h hnr
    unfold scanGo at h
    split at h
    · exact Except.noConfusion h
    · rename_i o ho
      split at h
      · exact Except.noConfusion h
      · rename_i r hr
        cases h
        have hnro : ∀ b, o.action ≠ Action.RENAMED b := by
          intro b hb
          exact hnr w.name b (by rw [← hb]; exact List.mem_cons_self _ _)
        have hnrr : ∀ n b, (n, Action.RENAMED b) ∉ r.actions := by
          intro n b hb
          exact hnr n b (List.mem_cons_of_mem _ hb)
        obtain ⟨hstepD, hsho⟩ :=
          step_no_rename_dry opts genId idx archR archD w o hdry hsh ho hnro
        obtain ⟨r', hr', ha', hp', hs'⟩ := ih o.archive archD r hsho hr hnrr
        cases hot : o.target with
        | some t' =>
          refine ⟨⟨(w.name, o.action) :: r'.actions, (w.name, t') :: r'.plan, r'.skipped,
                   r'.renames, w :: r'.workOut, r'.archive⟩, ?_, ?_, ?_, ?_⟩
          · rw [hot] at hstepD
            simp only [scanGo, hstepD, hr']
          · simp [ha']
          · simp [hot, hp']
          · simp [hot, hs']
        | none =>
          refine ⟨⟨(w.name, o.action) :: r'.actions, r'.plan,
                   (w.name, o.action) :: r'.skipped,
                   r'.renames, w :: r'.workOut, r'.archive⟩, ?_, ?_, ?_, ?_⟩
          · rw [hot] at hstepD
            simp only [scanGo, hstepD, hr']
          · simp [ha']
          · simp [hot, hp']
          · simp [hot, hs']

/-- Claim C1 is refuted.  With work `a` marked `X` and archive `b` marked `X`,
the real run places `a` in the sync plan while the dry run places the very
same entry (with the same action) in the skipped list — dry-run does not
produce the same partition into sync-plan and skipped entries, because in the
dry renamed branch `archive_subdir` stays `None` (source lines 246-251).
Moreover a dry run still invokes the mirror (with rsync's `--dry-run` flag),
rather than performing "no mirror invocation". -/
theorem c1_counterexample :
    main (Options.mk false false none false false false false) (fun n => n)
      ⟨[Entry.mk "a" true (some "X")], [Entry.mk "b" true (some "X")]⟩ =
      Except.ok (RunResult.mk 0 [("a", Action.RENAMED "b")] [("a", "a")] [] [("b", "a")]
        [RsyncCall.mk "a" "a" false] [Entry.mk "a" true (some "X")]
        [Entry.mk "a" true (some "X")]) ∧
    main (Options.mk true false none false false false false) (fun n => n)
      ⟨[Entry.mk "a" true (some "X")], [Entry.mk "b" true (some "X")]⟩ =
      Except.ok (RunResult.mk 0 [("a", Action.RENAMED "b")] [] [("a", Action.RENAMED "b")] []
        [] [Entry.mk "a" true (some "X")] [Entry.mk "b" true (some "X")]) ∧
    ([("a", "a")] : List (String × String)) ≠ [] ∧
    main (Options.mk true false none false false false false) (fun n => n)
      ⟨[Entry.mk "c" true none], []⟩ =
      Except.ok (RunResult.mk 0 [("c", Action.NEW)] [("c", "c")] [] []
        [RsyncCall.mk "c" "c" true] [Entry.mk "c" true none] []) := by
  exact ⟨by rfl, by rfl, by decide, by rfl⟩

/-- Claim C1 (amended): a dry run performs no mutation — the work and archive
roots are returned byte-for-byte unchanged, no rename is performed, and every
mirror invocation carries the `--dry-run` flag — and whenever the real run
completes with no entry classified `RENAMED`, the dry run produces the
identical classification: the same actions, the same sync plan and the same
skipped list.  (When an entry is classified `RENAMED`, the real run syncs it
while the dry run skips it, and the suppressed rename can change later
entries' classification, so the partitions may differ; see the
counterexample.) -/
theorem c1_dry_run_amended (opts : Options) (genId : String → String) (fs : FS) :
    (∀ r, opts.dry_run = true → namesNodup fs.work →
      main opts genId fs = Except.ok r →
      r.work = fs.work ∧ r.archive = fs.archive ∧ r.renames = [] ∧
      (∀ c ∈ r.rsyncCalls, c.dryRun = true)) ∧
    (∀ r, opts.dry_run = false → markRequested opts.mark = false →
      main opts genId fs = Except.ok r →
      (∀ n b, (n, Action.RENAMED b) ∉ r.actions) →
      ∃ r', main { opts with dry_run := true } genId fs = Except.ok r' ∧
        r'.actions = r.actions ∧ r'.plan = r.plan ∧ r'.skipped = r.skipped) := by
  constructor
  · intro r hdry hnod h
    by_cases hmk : markRequested opts.mark = true
    · unfold main at h
      rw [if_pos hmk, if_pos hdry] at h
      cases h
      exact ⟨rfl, rfl, rfl, by intro c hc; cases hc⟩
    · unfold main at h
      rw [if_neg hmk] at h
      split at h
      · exact Except.noConfusion h
      · rename_i s hs
        cases h
        obtain ⟨s₀, hs₀, hwo, har, hre⟩ :=
          scanGo_dry opts genId (knownArchiveDirs fs.archive) hdry
            (sortByName (workDirs fs)) fs.archive
        rw [hs₀] at hs
        cases hs
        have hmp := mirrorPhase_dry opts s.workOut hdry s.plan s.archive
        refine ⟨?_, ?_, hre, hmp.2⟩
        · rw [hwo]
          exact mergeWork_eq_self fs.work _ (sortByName_perm _) hnod
        · rw [hmp.1, har]
  · intro r hdry hmk h hnr
    have hmk' : ¬ (markRequested opts.mark = true) := by
      rw [hmk]
      exact Bool.false_ne_true
    unfold main at h
    rw [if_neg hmk'] at h
    split at h
    · exact Except.noConfusion h
    · rename_i s hs
      cases h
      obtain ⟨s', hs', ha', hp', hsk'⟩ :=
        scanGo_no_rename_dry opts genId (knownArchiveDirs fs.archive) hdry
          (sortByName (workDirs fs)) fs.archive fs.archive s rfl hs hnr
      refine ⟨⟨(if (!s'.skipped.isEmpty) && ({ opts with dry_run := true } : Options).report_skipped
                then 1 else 0),
              s'.actions, s'.plan, s'.skipped, s'.renames,
              (mirrorPhase { opts with dry_run := true } s'.workOut s'.plan s'.archive).1,
              mergeWork fs.work s'.workOut,
              (mirrorPhase { opts with dry_run := true } s'.workOut s'.plan s'.archive).2⟩,
            ?_, ha', hp', hsk'⟩
      unfold main
      rw [if_neg hmk']
      rw [hs']

/-- Witness for `c1_dry_run_amended`: the dry run of the rename scenario
leaves both roots untouched. -/
theorem c1_witness :
    (RunResult.mk 0 [("a", Action.RENAMED "b")] [] [("a", Action.RENAMED "b")] [] []
       [Entry.mk "a" true (some "X")] [Entry.mk "b" true (some "X")]).work =
      [Entry.mk "a" true (some "X")] ∧
    (RunResult.mk 0 [("a", Action.RENAMED "b")] [] [("a", Action.RENAMED "b")] [] []
       [Entry.mk "a" true (some "X")] [Entry.mk "b" true (some "X")]).archive =
      [Entry.mk "b" true (some "X")] := by
  have h := (c1_dry_run_amended (Options.mk true false none false false false false)
      (fun n => n) ⟨[Entry.mk "a" true (some "X")], [Entry.mk "b" true (some "X")]⟩).1
    (RunResult.mk 0 [("a", Action.RENAMED "b")] [] [("a", Action.RENAMED "b")] [] []
      [Entry.mk "a" true (some "X")] [Entry.mk "b" true (some "X")])
    rfl (by simp only [namesNodup]; decide) (by rfl)
  exact ⟨h.1, h.2.1⟩

/-! Run-twice behaviour (claim C3): facts about the first run's outputs. -/

/-- The possibly-marked work entry a step returns: either untouched, or the
unmarked entry with a fresh marker written. -/
theorem step_workEntry (opts : Options) (genId : String → String)
    (idx : List (String × String)) (arch : Root) (w : Entry) (o : StepOut)
    (h : step opts genId idx arch w = Except.ok o) :
    o.workEntry = w ∨
    (read_dir_id w.awid = none ∧ o.workEntry = { w with awid := some (genId w.name) }) := by
  rcases step_cases opts genId idx arch w o h with
    ⟨h1, _, _, _, rfl⟩ | ⟨a', h1, _, _, _, _, rfl⟩ | ⟨h1, _, _, rfl⟩ | ⟨h1, _, _, rfl⟩ |
    ⟨h1, _, _, rfl⟩ | ⟨i, b, _, _, _, _, rfl⟩ | ⟨i, b, a', _, _, _, _, _, rfl⟩ |
    ⟨i, _, _, rfl⟩ | ⟨i, _, _, _, rfl⟩ | ⟨i, _, _, _, rfl⟩
  · exact Or.inl rfl
  · exact Or.inr ⟨h1, rfl⟩
  · exact Or.inl rfl
  · exact Or.inl rfl
  · exact Or.inr ⟨h1, rfl⟩
  · exact Or.inl rfl
  · exact Or.inl rfl
  · exact Or.inl rfl
  · exact Or.inl rfl
  · exact Or.inl rfl

/-- Every plan entry pairs a work name with itself as target. -/
theorem scanGo_plan_pairs (opts : Options) (genId : String → String)
    (idx : List (String × String)) :
    ∀ (ws : List Entry) (arch : Root) (s : ScanResult),
      scanGo opts genId idx ws arch = Except.ok s →
      ∀ p ∈ s.plan, p.2 = p.1 := by
  intro ws
  induction ws with
  | nil =>
    intro arch s h p hp
    cases h
    cases hp
  | cons w rest ih =>
    intro arch s h p hp
    unfold scanGo at h
    split at h
    · exact Except.noConfusion h
    · rename_i o ho
      split at h
      · exact Except.noConfusion h
      · rename_i r hr
        cases h
        rcases step_target_eq opts genId idx arch w o ho with hn | hsome
        · simp only [hn] at hp
          exact ih o.archive r hr p hp
        · simp only [hsome] at hp
          rcases List.mem_cons.mp hp with rfl | hp'
          · rfl
          · exact ih o.archive r hr p hp'

/-- Every plan entry comes from a specific work subdirectory's step. -/
theorem scanGo_plan_source (opts : Options) (genId : String → String)
    (idx : List (String × String)) :
    ∀ (ws : List Entry) (arch : Root) (s : ScanResult),
      scanGo opts genId idx ws arch = Except.ok s →
      ∀ p ∈ s.plan, ∃ w, w ∈ ws ∧ ∃ arch' o,
        step opts genId idx arch' w = Except.ok o ∧
        o.target = some p.2 ∧ p.1 = w.name := by
  intro ws
  induction ws with
  | nil =>
    intro arch s h p hp
    cases h
    cases hp
  | cons w rest ih =>
    intro arch s h p hp
    unfold scanGo at h
    split at h
    · exact Except.noConfusion h
    · rename_i o ho
      split at h
      · exact Except.noConfusion h
      · rename_i r hr
        cases h
        cases hot : o.target with
        | none =>
          simp only [hot] at hp
          obtain ⟨w', hw', rest'⟩ := ih o.archive r hr p hp
          exact ⟨w', List.mem_cons_of_mem _ hw', rest'⟩
        | some t' =>
          simp only [hot] at hp
          rcases List.mem_cons.mp hp with rfl | hp'
          · exact ⟨w, List.mem_cons_self _ _, arch, o, ho, hot, rfl⟩
          · obtain ⟨w', hw', rest'⟩ := ih o.archive r hr p hp'
            exact ⟨w', List.mem_cons_of_mem _ hw', rest'⟩

/-- Strengthened per-entry account of a scan with distinct work names: each
work subdirectory's step output appears in the results, its processed entry is
among the processed work entries, and a skipped subdirectory's name is absent
from the plan. -/
theorem scanGo_mem_strong (opts : Options) (genId : String → String)
    (idx : List (String × String)) :
    ∀ (ws : List Entry) (arch : Root) (s : ScanResult) (w : Entry),
      scanGo opts genId idx ws arch = Except.ok s → w ∈ ws →
      (ws.map Entry.name).Nodup →
      ∃ arch' o, step opts genId idx arch' w = Except.ok o ∧
        o.workEntry ∈ s.workOut ∧
        (w.name, o.action) ∈ s.actions ∧
        (∀ t, o.target = some t → (w.name, t) ∈ s.plan) ∧
        (o.target = none → (w.name, o.action) ∈ s.skipped ∧ w.name ∉ s.plan.map Prod.fst) ∧
        (∀ q, o.renamedOp = some q → q ∈ s.renames) := by
  intro ws
  induction ws with
  | nil =>
    intro arch s w h hw
    cases hw
  | cons v rest ih =>
    intro arch s w h hw hnd
    rw [List.map_cons, List.nodup_cons] at hnd
    unfold scanGo at h
    split at h
    · exact Except.noConfusion h
    · rename_i o ho
      split at h
      · exact Except.noConfusion h
      · rename_i r hr
        cases h
        obtain ⟨hpl, _, _⟩ := scanGo_sublists opts genId idx rest o.archive r hr
        cases hw with
        | head =>
          refine ⟨arch, o, ho, List.mem_cons_self _ _, List.mem_cons_self _ _, ?_, ?_, ?_⟩
          · intro t ht
            simp [ht]
          · intro ht
            refine ⟨by simp [ht], ?_⟩
            simp only [ht]
            intro hmem
            exact hnd.1 (hpl.subset hmem)
          · intro q hq
            simp [hq]
        | tail _ hw' =>
          obtain ⟨arch', o', ho', hwo, ha, hp, hsk, hren⟩ := ih o.archive r w hr hw' hnd.2
          have hvne : w.name ≠ v.name := by
            intro he
            exact hnd.1 (he ▸ List.mem_map_of_mem Entry.name hw')
          refine ⟨arch', o', ho', List.mem_cons_of_mem _ hwo,
                  List.mem_cons_of_mem _ ha, ?_, ?_, ?_⟩
          · intro t ht
            cases hot : o.target <;> simp [hot, hp t ht]
          · intro ht
            obtain ⟨hsk1, hsk2⟩ := hsk ht
            cases hot : o.target with
            | none => exact ⟨by simp [hsk1], by simpa using hsk2⟩
            | some t' =>
              refine ⟨by simp [hsk1], ?_⟩
              simp only [hot, List.map_cons]
              intro hmem
              rcases List.mem_cons.mp hmem with he | hmem'
              · exact hvne he
              · exact hsk2 hmem'
          · intro q hq
            cases hor : o.renamedOp <;> simp [hor, hren q hq]

/-- Processed work entries correspond one-for-one to the scanned entries:
names and directory-ness are preserved, and the sentinel content is either
untouched or freshly written on a previously unmarked entry. -/
theorem scanGo_workOut_rel (opts : Options) (genId : String → String)
    (idx : List (String × String)) :
    ∀ (ws : List Entry) (arch : Root) (s : ScanResult),
      scanGo opts genId idx ws arch = Except.ok s →
      List.Forall₂ (fun w wo => wo.name = w.name ∧ wo.isDir = w.isDir ∧
        (wo.awid = w.awid ∨ (read_dir_id w.awid = none ∧ wo.awid = some (genId w.name))))
        ws s.workOut := by
  intro ws
  induction ws with
  | nil =>
    intro arch s h
    cases h
    exact List.Forall₂.nil
  | cons w rest ih =>
    intro arch s h
    unfold scanGo at h
    split at h
    · exact Except.noConfusion h
    · rename_i o ho
      split at h
      · exact Except.noConfusion h
      · rename_i r hr
        cases h
        refine List.Forall₂.cons ?_ (ih o.archive r hr)
        rcases step_workEntry opts genId idx arch w o ho with he | ⟨hid, he⟩
        · rw [he]
          exact ⟨rfl, rfl, Or.inl rfl⟩
        · rw [he]
          exact ⟨rfl, rfl, Or.inr ⟨hid, rfl⟩⟩

/-! Index-lookup facts for the run-twice analysis. -/

theorem lookupId_cons_eq (acc : List (String × String)) (i n : String) :
    lookupId ((i, n) :: acc) i = some n := by
  unfold lookupId
  rw [List.find?_cons]
  simp

theorem lookupId_cons_ne (acc : List (String × String)) (i j n : String) (h : j ≠ i) :
    lookupId ((j, n) :: acc) i = lookupId acc i := by
  unfold lookupId
  rw [List.find?_cons]
  have hb : ((j, n).1 == i) = false := by simp [h]
  rw [hb]

/-- A non-hit entry leaves the lookup of `i` in the accumulator unchanged. -/
theorem lookupId_indexInsert_no_hit (acc : List (String × String)) (e : Entry) (i : String)
    (h : e.isDir = true → read_dir_id e.awid ≠ some i) :
    lookupId (indexInsert acc e) i = lookupId acc i := by
  unfold indexInsert
  cases hd : e.isDir with
  | false => simp
  | true =>
    simp only [if_pos rfl]
    cases hr : read_dir_id e.awid with
    | none => rfl
    | some j =>
      have hj : j ≠ i := by
        intro he
        exact h hd (he ▸ hr)
      exact lookupId_cons_ne acc i j e.name hj

theorem lookupId_foldl_no_hit (i : String) :
    ∀ (l : Root) (acc : List (String × String)),
      (∀ e ∈ l, e.isDir = true → read_dir_id e.awid ≠ some i) →
      lookupId (l.foldl indexInsert acc) i = lookupId acc i := by
  intro l
  induction l with
  | nil => intro acc _; rfl
  | cons e rest ih =>
    intro acc h
    rw [List.foldl_cons]
    rw [ih (indexInsert acc e) (fun e' he' => h e' (List.mem_cons_of_mem _ he'))]
    exact lookupId_indexInsert_no_hit acc e i (h e (List.mem_cons_self _ _))

/-- If no archive directory carries identity `i`, the index has no entry for
it. -/
theorem knownArchiveDirs_lookup_none (arch : Root) (i : String)
    (h : ∀ e ∈ arch, e.isDir = true → read_dir_id e.awid ≠ some i) :
    lookupId (knownArchiveDirs arch) i = none := by
  unfold knownArchiveDirs
  rw [lookupId_foldl_no_hit i arch [] h]
  rfl

theorem lookupId_foldl_some_preserved (i : String) :
    ∀ (l : Root) (acc : List (String × String)) (m : String),
      lookupId acc i = some m →
      ∃ m', lookupId (l.foldl indexInsert acc) i = some m' := by
  intro l
  induction l with
  | nil => intro acc m h; exact ⟨m, h⟩
  | cons e rest ih =>
    intro acc m h
    rw [List.foldl_cons]
    unfold indexInsert
    cases hd : e.isDir with
    | false => exact ih acc m (by simpa using h)
    | true =>
      simp only [if_pos rfl]
      cases hr : read_dir_id e.awid with
      | none => exact ih acc m h
      | some j =>
        by_cases hj : j = i
        · subst hj
          exact ih ((j, e.name) :: acc) e.name (lookupId_cons_eq acc j e.name)
        · exact ih ((j, e.name) :: acc) m (by rw [lookupId_cons_ne acc i j e.name hj]; exact h)

/-- If some archive directory carries identity `i`, the index resolves it. -/
theorem knownArchiveDirs_lookup_isSome (arch : Root) (i : String) (e₀ : Entry)
    (he₀ : e₀ ∈ arch) (hd : e₀.isDir = true) (hr : read_dir_id e₀.awid = some i) :
    ∃ m, lookupId (knownArchiveDirs arch) i = some m := by
  unfold knownArchiveDirs
  obtain ⟨l₁, l₂, rfl⟩ := List.append_of_mem he₀
  rw [List.foldl_append, List.foldl_cons]
  have hhd : lookupId (indexInsert (l₁.foldl indexInsert []) e₀) i = some e₀.name := by
    unfold indexInsert
    rw [if_pos hd, hr]
    exact lookupId_cons_eq _ i e₀.name
  exact lookupId_foldl_some_preserved i l₂ _ e₀.name hhd

/-- A resolved index entry comes from some archive directory with that
identity and name. -/
theorem knownArchiveDirs_lookup_some (arch : Root) (i n : String)
    (h : lookupId (knownArchiveDirs arch) i = some n) :
    ∃ e ∈ arch, e.isDir = true ∧ read_dir_id e.awid = some i ∧ e.name = n := by
  by_cases hhit : ∀ e ∈ arch, e.isDir = true → read_dir_id e.awid ≠ some i
  · rw [knownArchiveDirs_lookup_none arch i hhit] at h
    exact Option.noConfusion h
  · push_neg at hhit
    obtain ⟨e₀, he₀, hd, hr⟩ := hhit
    -- walk the fold to find which hit produced `n`
    clear hd hr he₀ e₀
    suffices haux : ∀ (l : Root) (acc : List (String × String)),
        lookupId (l.foldl indexInsert acc) i = some n →
        (∃ e ∈ l, e.isDir = true ∧ read_dir_id e.awid = some i ∧ e.name = n) ∨
        lookupId acc i = some n by
      rcases haux arch [] h with hfound | hacc
      · exact hfound
      · exact absurd hacc (by unfold lookupId; simp)
    intro l
    induction l with
    | nil =>
      intro acc hl
      exact Or.inr hl
    | cons e rest ih =>
      intro acc hl
      rw [List.foldl_cons] at hl
      rcases ih (indexInsert acc e) hl with hfound | hacc
      · obtain ⟨e', he', rest'⟩ := hfound
        exact Or.inl ⟨e', List.mem_cons_of_mem _ he', rest'⟩
      · unfold indexInsert at hacc
        by_cases hd : e.isDir = true
        · rw [if_pos hd] at hacc
          cases hr : read_dir_id e.awid with
          | none =>
            rw [hr] at hacc
            exact Or.inr hacc
          | some j =>
            rw [hr] at hacc
            by_cases hj : j = i
            · subst hj
              rw [lookupId_cons_eq acc j e.name] at hacc
              cases hacc
              exact Or.inl ⟨e, List.mem_cons_self _ _, hd, hr, rfl⟩
            · rw [lookupId_cons_ne acc i j e.name hj] at hacc
              exact Or.inr hacc
        · rw [if_neg hd] at hacc
          exact Or.inr hacc

/-- With exactly one archive directory carrying identity `i` (up to name),
the index resolves `i` to that name. -/
theorem knownArchiveDirs_lookup_unique (arch : Root) (i n : String) (e₀ : Entry)
    (he₀ : e₀ ∈ arch) (hd : e₀.isDir = true) (hr : read_dir_id e₀.awid = some i)
    (huniq : ∀ e ∈ arch, e.isDir = true → read_dir_id e.awid = some i → e.name = n) :
    lookupId (knownArchiveDirs arch) i = some n := by
  obtain ⟨m, hm⟩ := knownArchiveDirs_lookup_isSome arch i e₀ he₀ hd hr
  obtain ⟨e', he', hd', hr', hn'⟩ := knownArchiveDirs_lookup_some arch i m hm
  rw [hm, ← hn', huniq e' he' hd' hr']

/-! Archive-state evolution during a real scan. -/

/-- What a successful real step does to the archive root: nothing, a sentinel
write at the work name (`--mark-new` overwrite), or a rename to the work
name. -/
theorem step_archive_effect (opts : Options) (genId : String → String)
    (idx : List (String × String)) (arch : Root) (w : Entry) (o : StepOut)
    (hdry : opts.dry_run = false)
    (h : step opts genId idx arch w = Except.ok o) :
    (o.archive = arch ∧ o.renamedOp = none) ∨
    (o.archive = setAwid arch w.name (genId w.name) ∧ o.renamedOp = none ∧
      o.target = some w.name) ∨
    (∃ b, o.archive =
        arch.map (fun e => if e.name = b then { e with name := w.name } else e) ∧
      existsName arch b = true ∧ existsName arch w.name = false ∧ b ≠ w.name ∧
      o.renamedOp = some (b, w.name) ∧ o.target = some w.name) := by
  rcases step_cases opts genId idx arch w o h with
    ⟨_, _, _, h4, rfl⟩ | ⟨a', _, _, _, _, h5, rfl⟩ | ⟨_, _, _, rfl⟩ | ⟨_, _, h3, rfl⟩ |
    ⟨_, _, _, rfl⟩ | ⟨i, b, _, _, _, h4, rfl⟩ | ⟨i, b, a', _, _, hne, _, h5, rfl⟩ |
    ⟨i, _, _, rfl⟩ | ⟨i, _, _, _, rfl⟩ | ⟨i, _, _, _, rfl⟩
  · rw [hdry] at h4; exact Bool.noConfusion h4
  · obtain ⟨_, hset⟩ := writeAwidFile_ok h5
    exact Or.inr (Or.inl ⟨hset, rfl, rfl⟩)
  · exact Or.inl ⟨rfl, rfl⟩
  · rw [hdry] at h3; exact Bool.noConfusion h3
  · exact Or.inl ⟨rfl, rfl⟩
  · rw [hdry] at h4; exact Bool.noConfusion h4
  · obtain ⟨hsrc, hdst, hmap⟩ := renameEntry_ok h5
    exact Or.inr (Or.inr ⟨b, hmap, hsrc, hdst, hne, rfl, rfl⟩)
  · exact Or.inl ⟨rfl, rfl⟩
  · exact Or.inl ⟨rfl, rfl⟩
  · exact Or.inl ⟨rfl, rfl⟩

theorem existsName_iff_mem {root : Root} {nm : String} :
    existsName root nm = true ↔ ∃ e ∈ root, e.name = nm := by
  unfold existsName
  rw [List.any_eq_true]
  constructor
  · rintro ⟨e, he, hb⟩
    exact ⟨e, he, by simpa using hb⟩
  · rintro ⟨e, he, hb⟩
    exact ⟨e, he, by simpa using hb⟩

theorem existsName_eq_mem_names {root : Root} {nm : String} :
    existsName root nm = true ↔ nm ∈ root.map Entry.name := by
  rw [existsName_iff_mem]
  constructor
  · rintro ⟨e, he, rfl⟩
    exact List.mem_map_of_mem _ he
  · intro h
    obtain ⟨e, he, hh⟩ := List.mem_map.mp h
    exact ⟨e, he, hh⟩

theorem mem_setAwid {arch : Root} {e : Entry} {nm v : String}
    (he : e ∈ setAwid arch nm v) :
    (e ∈ arch ∧ e.name ≠ nm) ∨
    (∃ e₀ ∈ arch, e₀.name = nm ∧ e = { e₀ with awid := some v }) := by
  unfold setAwid at he
  obtain ⟨e₀, he₀, hf⟩ := List.mem_map.mp he
  by_cases hn : e₀.name = nm
  · rw [if_pos hn] at hf
    exact Or.inr ⟨e₀, he₀, hn, hf.symm⟩
  · rw [if_neg hn] at hf
    cases hf
    exact Or.inl ⟨he₀, hn⟩

theorem mem_renamed {arch : Root} {e : Entry} {src dst : String}
    (he : e ∈ arch.map (fun e => if e.name = src then { e with name := dst } else e)) :
    (e ∈ arch ∧ e.name ≠ src) ∨
    (∃ e₀ ∈ arch, e₀.name = src ∧ e = { e₀ with name := dst }) := by
  obtain ⟨e₀, he₀, hf⟩ := List.mem_map.mp he
  by_cases hn : e₀.name = src
  · rw [if_pos hn] at hf
    exact Or.inr ⟨e₀, he₀, hn, hf.symm⟩
  · rw [if_neg hn] at hf
    cases hf
    exact Or.inl ⟨he₀, hn⟩

theorem setAwid_names (arch : Root) (nm v : String) :
    (setAwid arch nm v).map Entry.name = arch.map Entry.name := by
  unfold setAwid
  rw [List.map_map]
  apply List.map_congr_left
  intro e _
  by_cases h : e.name = nm <;> simp [h]

theorem renamed_map_names (arch : Root) (src dst : String) :
    (arch.map (fun e => if e.name = src then { e with name := dst } else e)).map Entry.name =
    (arch.map Entry.name).map (fun n => if n = src then dst else n) := by
  rw [List.map_map, List.map_map]
  apply List.map_congr_left
  intro e _
  by_cases h : e.name = src <;> simp [h]

theorem nodup_map_rename {l : List String} {src dst : String}
    (hn : l.Nodup) (hd : dst ∉ l) :
    (l.map (fun n => if n = src then dst else n)).Nodup := by
  induction l with
  | nil => exact List.nodup_nil
  | cons n rest ih =>
    rw [List.nodup_cons] at hn
    have hdr : dst ∉ rest := fun hc => hd (List.mem_cons_of_mem _ hc)
    have hdn : dst ≠ n := fun hc => hd (hc ▸ List.mem_cons_self _ _)
    rw [List.map_cons, List.nodup_cons]
    refine ⟨?_, ih hn.2 hdr⟩
    intro hmem
    obtain ⟨x, hx, hfx⟩ := List.mem_map.mp hmem
    by_cases hns : n = src
    · rw [if_pos hns] at hfx
      by_cases hxs : x = src
      · rw [← hns] at hxs
        rw [← hxs] at hn
        exact hn.1 hx
      · rw [if_neg hxs] at hfx
        exact hdr (hfx ▸ hx)
    · rw [if_neg hns] at hfx
      by_cases hxs : x = src
      · rw [if_pos hxs] at hfx
        exact hdn hfx
      · rw [if_neg hxs] at hfx
        exact hn.1 (hfx ▸ hx)

/-- A real scan preserves distinctness of archive names (renames only move an
entry to a previously unoccupied name). -/
theorem scanGo_archive_nodup (opts : Options) (genId : String → String)
    (idx : List (String × String)) (hdry : opts.dry_run = false) :
    ∀ (ws : List Entry) (arch : Root) (s : ScanResult),
      scanGo opts genId idx ws arch = Except.ok s →
      (arch.map Entry.name).Nodup → (s.archive.map Entry.name).Nodup := by
  intro ws
  induction ws with
  | nil =>
    intro arch s h hn
    cases h
    exact hn
  | cons w rest ih =>
    intro arch s h hn
    unfold scanGo at h
    split at h
    · exact Except.noConfusion h
    · rename_i o ho
      split at h
      · exact Except.noConfusion h
      · rename_i r hr
        cases h
        rcases step_archive_effect opts genId idx arch w o hdry ho with
          ⟨harch, _⟩ | ⟨harch, _, _⟩ | ⟨b, harch, hsrc, hdst, hbne, _, _⟩
        · exact ih o.archive r hr (harch ▸ hn)
        · refine ih o.archive r hr ?_
          rw [harch, setAwid_names]
          exact hn
        · refine ih o.archive r hr ?_
          rw [harch, renamed_map_names]
          apply nodup_map_rename hn
          intro hc
          rw [← existsName_eq_mem_names] at hc
          rw [hc] at hdst
          exact Bool.noConfusion hdst

/-- Every entry of the post-scan archive is an original entry, or sits at a
name that entered the sync plan. -/
theorem scanGo_archive_origin (opts : Options) (genId : String → String)
    (idx : List (String × String)) (hdry : opts.dry_run = false) :
    ∀ (ws : List Entry) (arch : Root) (s : ScanResult),
      scanGo opts genId idx ws arch = Except.ok s →
      ∀ e ∈ s.archive, e ∈ arch ∨ e.name ∈ s.plan.map Prod.fst := by
  intro ws
  induction ws with
  | nil =>
    intro arch s h e he
    cases h
    exact Or.inl he
  | cons w rest ih =>
    intro arch s h e he
    unfold scanGo at h
    split at h
    · exact Except.noConfusion h
    · rename_i o ho
      split at h
      · exact Except.noConfusion h
      · rename_i r hr
        cases h
        have hsup : ∀ x, x ∈ r.plan.map Prod.fst →
            x ∈ (match o.target with
                 | some t => (w.name, t) :: r.plan
                 | none => r.plan).map Prod.fst := by
          intro x hx
          cases hot : o.target <;> simp [hx]
        rcases step_archive_effect opts genId idx arch w o hdry ho with
          ⟨harch, _⟩ | ⟨harch, _, htgt⟩ | ⟨b, harch, hsrc, hdst, hbne, _, htgt⟩
        · rcases ih o.archive r hr e he with hmem | hplan
          · rw [harch] at hmem
            exact Or.inl hmem
          · exact Or.inr (hsup _ hplan)
        · rcases ih o.archive r hr e he with hmem | hplan
          · rw [harch] at hmem
            rcases mem_setAwid hmem with ⟨hm, _⟩ | ⟨e₀, he₀, hn₀, rfl⟩
            · exact Or.inl hm
            · right
              rw [htgt]
              simp [hn₀]
          · exact Or.inr (hsup _ hplan)
        · rcases ih o.archive r hr e he with hmem | hplan
          · rw [harch] at hmem
            rcases mem_renamed hmem with ⟨hm, _⟩ | ⟨e₀, he₀, hn₀, rfl⟩
            · exact Or.inl hm
            · right
              rw [htgt]
              simp
          · exact Or.inr (hsup _ hplan)

/-- Every rename's destination is a plan name. -/
theorem scanGo_renames_in_plan (opts : Options) (genId : String → String)
    (idx : List (String × String)) (hdry : opts.dry_run = false) :
    ∀ (ws : List Entry) (arch : Root) (s : ScanResult),
      scanGo opts genId idx ws arch = Except.ok s →
      ∀ p ∈ s.renames, p.2 ∈ s.plan.map Prod.fst := by
  intro ws
  induction ws with
  | nil =>
    intro arch s h p hp
    cases h
    cases hp
  | cons w rest ih =>
    intro arch s h p hp
    unfold scanGo at h
    split at h
    · exact Except.noConfusion h
    · rename_i o ho
      split at h
      · exact Except.noConfusion h
      · rename_i r hr
        cases h
        have hsup : ∀ x, x ∈ r.plan.map Prod.fst →
            x ∈ (match o.target with
                 | some t => (w.name, t) :: r.plan
                 | none => r.plan).map Prod.fst := by
          intro x hx
          cases hot : o.target <;> simp [hx]
        rcases step_archive_effect opts genId idx arch w o hdry ho with
          ⟨harch, hren⟩ | ⟨harch, hren, htgt⟩ | ⟨b, harch, hsrc, hdst, hbne, hren, htgt⟩
        · simp only [hren] at hp
          exact hsup _ (ih o.archive r hr p hp)
        · simp only [hren] at hp
          exact hsup _ (ih o.archive r hr p hp)
        · simp only [hren] at hp
          rcases List.mem_cons.mp hp with rfl | hp'
          · rw [htgt]
            simp
          · exact hsup _ (ih o.archive r hr p hp')

/-- Any name occupied after the scan was occupied before, or is a rename
destination. -/
theorem scanGo_name_intro (opts : Options) (genId : String → String)
    (idx : List (String × String)) (hdry : opts.dry_run = false) :
    ∀ (ws : List Entry) (arch : Root) (s : ScanResult),
      scanGo opts genId idx ws arch = Except.ok s →
      ∀ x, existsName s.archive x = true →
        existsName arch x = true ∨ x ∈ s.renames.map Prod.snd := by
  intro ws
  induction ws with
  | nil =>
    intro arch s h x hx
    cases h
    exact Or.inl hx
  | cons w rest ih =>
    intro arch s h x hx
    unfold scanGo at h
    split at h
    · exact Except.noConfusion h
    · rename_i o ho
      split at h
      · exact Except.noConfusion h
      · rename_i r hr
        cases h
        have hsnds : ∀ y, y ∈ r.renames.map Prod.snd →
            y ∈ (match o.renamedOp with
                 | some q => q :: r.renames
                 | none => r.renames).map Prod.snd := by
          intro y hy
          cases hor : o.renamedOp <;> simp [hy]
        rcases step_archive_effect opts genId idx arch w o hdry ho with
          ⟨harch, hren⟩ | ⟨harch, hren, _⟩ | ⟨b, harch, hsrc, hdst, hbne, hren, _⟩
        · rcases ih o.archive r hr x hx with hex | hsnd
          · rw [harch] at hex
            exact Or.inl hex
          · exact Or.inr (hsnds _ hsnd)
        · rcases ih o.archive r hr x hx with hex | hsnd
          · rw [harch, existsName_eq_mem_names, setAwid_names,
               ← existsName_eq_mem_names] at hex
            exact Or.inl hex
          · exact Or.inr (hsnds _ hsnd)
        · rcases ih o.archive r hr x hx with hex | hsnd
          · rw [harch, existsName_eq_mem_names, renamed_map_names] at hex
            obtain ⟨n₀, hn₀, hfn⟩ := List.mem_map.mp hex
            by_cases hb : n₀ = b
            · rw [if_pos hb] at hfn
              right
              rw [hren]
              rw [← hfn]
              simp
            · rw [if_neg hb] at hfn
              left
              rw [existsName_eq_mem_names]
              exact hfn ▸ hn₀
          · exact Or.inr (hsnds _ hsnd)

/-- Once an entry is renamed away from `b`, the name `b` can only reappear as
a (later) plan name: at the end of the scan, a surviving occupant of a rename
source means that source is itself a plan name. -/
theorem scanGo_rename_src_plan (opts : Options) (genId : String → String)
    (idx : List (String × String)) (hdry : opts.dry_run = false) :
    ∀ (ws : List Entry) (arch : Root) (s : ScanResult),
      scanGo opts genId idx ws arch = Except.ok s →
      ∀ p ∈ s.renames, existsName s.archive p.1 = true → p.1 ∈ s.plan.map Prod.fst := by
  intro ws
  induction ws with
  | nil =>
    intro arch s h p hp
    cases h
    cases hp
  | cons w rest ih =>
    intro arch s h p hp hex
    unfold scanGo at h
    split at h
    · exact Except.noConfusion h
    · rename_i o ho
      split at h
      · exact Except.noConfusion h
      · rename_i r hr
        cases h
        have hsup : ∀ x, x ∈ r.plan.map Prod.fst →
            x ∈ (match o.target with
                 | some t => (w.name, t) :: r.plan
                 | none => r.plan).map Prod.fst := by
          intro x hx
          cases hot : o.target <;> simp [hx]
        rcases step_archive_effect opts genId idx arch w o hdry ho with
          ⟨harch, hren⟩ | ⟨harch, hren, _⟩ | ⟨b, harch, hsrc, hdst, hbne, hren, htgt⟩
        · simp only [hren] at hp
          exact hsup _ (ih o.archive r hr p hp hex)
        · simp only [hren] at hp
          exact hsup _ (ih o.archive r hr p hp hex)
        · simp only [hren] at hp
          rcases List.mem_cons.mp hp with rfl | hp'
          · rcases scanGo_name_intro opts genId idx hdry rest o.archive r hr b hex with
              hex' | hsnd
            · rw [harch, existsName_eq_mem_names, renamed_map_names] at hex'
              obtain ⟨n₀, hn₀, hfn⟩ := List.mem_map.mp hex'
              by_cases hb : n₀ = b
              · rw [if_pos hb] at hfn
                exact absurd hfn.symm hbne
              · rw [if_neg hb] at hfn
                exact absurd hfn hb
            · obtain ⟨q, hq, hq2⟩ := List.mem_map.mp hsnd
              have hqp := scanGo_renames_in_plan opts genId idx hdry rest o.archive r hr q hq
              rw [hq2] at hqp
              exact hsup _ hqp
          · exact hsup _ (ih o.archive r hr p hp' hex)

/-! Mirror-phase effects in a real run. -/

theorem mem_upsert {arch : Root} {e : Entry} {nm : String} {v : Option String}
    (he : e ∈ upsert arch nm v) :
    (e ∈ arch ∧ e.name ≠ nm) ∨ e = ⟨nm, true, v⟩ := by
  unfold upsert at he
  by_cases hex : existsName arch nm = true
  · rw [if_pos hex] at he
    obtain ⟨e₀, he₀, hf⟩ := List.mem_map.mp he
    by_cases hn : e₀.name = nm
    · rw [if_pos hn] at hf
      exact Or.inr hf.symm
    · rw [if_neg hn] at hf
      cases hf
      exact Or.inl ⟨he₀, hn⟩
  · rw [if_neg hex] at he
    rcases List.mem_append.mp he with hm | hm
    · refine Or.inl ⟨hm, fun hc => hex (existsName_of_mem hm hc)⟩
    · rcases List.mem_singleton.mp hm with rfl
      exact Or.inr rfl

theorem upsert_mem_self (arch : Root) (nm : String) (v : Option String) :
    (⟨nm, true, v⟩ : Entry) ∈ upsert arch nm v := by
  unfold upsert
  by_cases hex : existsName arch nm = true
  · rw [if_pos hex]
    obtain ⟨e₀, he₀, hn₀⟩ := existsName_iff_mem.mp hex
    refine List.mem_map.mpr ⟨e₀, he₀, ?_⟩
    exact if_pos hn₀
  · rw [if_neg hex]
    exact List.mem_append_right _ (List.mem_singleton.mpr rfl)

theorem mem_upsert_of_mem {arch : Root} {e : Entry} (nm : String) (v : Option String)
    (he : e ∈ arch) (hne : e.name ≠ nm) : e ∈ upsert arch nm v := by
  unfold upsert
  by_cases hex : existsName arch nm = true
  · rw [if_pos hex]
    have : (fun e' => if e'.name = nm then (⟨nm, true, v⟩ : Entry) else e') e = e :=
      if_neg hne
    exact this ▸ List.mem_map_of_mem _ he
  · rw [if_neg hex]
    exact List.mem_append_left _ he

theorem upsert_names_nodup (arch : Root) (nm : String) (v : Option String)
    (hnd : (arch.map Entry.name).Nodup) :
    ((upsert arch nm v).map Entry.name).Nodup := by
  unfold upsert
  by_cases hex : existsName arch nm = true
  · rw [if_pos hex]
    have heq : (arch.map (fun e => if e.name = nm then (⟨nm, true, v⟩ : Entry) else e)).map
        Entry.name = arch.map Entry.name := by
      rw [List.map_map]
      apply List.map_congr_left
      intro e _
      by_cases h : e.name = nm <;> simp [h]
    rw [heq]
    exact hnd
  · rw [if_neg hex]
    rw [List.map_append]
    have hnm : nm ∉ arch.map Entry.name := by
      intro hc
      rw [← existsName_eq_mem_names] at hc
      exact hex hc
    simp [List.nodup_append, hnd, hnm]

/-- The real mirror phase over a plan of distinct self-paired names: names
stay distinct, entries away from plan names pass through unchanged in both
directions, and each plan name ends up as a directory entry carrying the
processed work side's sentinel content. -/
theorem mirrorPhase_real (opts : Options) (workOut : List Entry)
    (hdry : opts.dry_run = false) (hts : opts.test_no_rsync = false) :
    ∀ (ps : List (String × String)) (arch : Root),
      (∀ p ∈ ps, p.2 = p.1) →
      (ps.map Prod.fst).Nodup →
      (arch.map Entry.name).Nodup →
      (((mirrorPhase opts workOut ps arch).2).map Entry.name).Nodup ∧
      (∀ e ∈ arch, e.name ∉ ps.map Prod.fst → e ∈ (mirrorPhase opts workOut ps arch).2) ∧
      (∀ e ∈ (mirrorPhase opts workOut ps arch).2, e.name ∉ ps.map Prod.fst → e ∈ arch) ∧
      (∀ n ∈ ps.map Prod.fst,
        (⟨n, true, mirrorContent workOut n⟩ : Entry) ∈ (mirrorPhase opts workOut ps arch).2) := by
  intro ps
  induction ps with
  | nil =>
    intro arch _ _ hand
    refine ⟨hand, fun e he _ => he, fun e he _ => he, ?_⟩
    intro n hn
    cases hn
  | cons p rest ih =>
    obtain ⟨pn, pt⟩ := p
    intro arch hpairs hnd hand
    have hpt : pt = pn := hpairs (pn, pt) (List.mem_cons_self _ _)
    subst pt
    rw [List.map_cons, List.nodup_cons] at hnd
    have heq : mirrorPhase opts workOut ((pn, pn) :: rest) arch =
        (⟨pn, pn, opts.dry_run⟩ ::
          (mirrorPhase opts workOut rest (rsyncEffect opts workOut arch pn pn)).1,
         (mirrorPhase opts workOut rest (rsyncEffect opts workOut arch pn pn)).2) := by
      simp [mirrorPhase, hts]
    have heff : rsyncEffect opts workOut arch pn pn =
        upsert arch pn (mirrorContent workOut pn) := by
      unfold rsyncEffect
      rw [hdry]
      simp
    rw [heq, heff]
    simp only
    obtain ⟨ha, hpres, hback, hexist⟩ :=
      ih (upsert arch pn (mirrorContent workOut pn))
        (fun q hq => hpairs q (List.mem_cons_of_mem _ hq)) hnd.2
        (upsert_names_nodup arch pn (mirrorContent workOut pn) hand)
    refine ⟨ha, ?_, ?_, ?_⟩
    · intro e he hnot
      rw [List.map_cons] at hnot
      have hne : e.name ≠ pn := fun hc => hnot (hc ▸ List.mem_cons_self _ _)
      have hrest : e.name ∉ rest.map Prod.fst := fun hc => hnot (List.mem_cons_of_mem _ hc)
      exact hpres e (mem_upsert_of_mem pn _ he hne) hrest
    · intro e he hnot
      rw [List.map_cons] at hnot
      have hne : e.name ≠ pn := fun hc => hnot (hc ▸ List.mem_cons_self _ _)
      have hrest : e.name ∉ rest.map Prod.fst := fun hc => hnot (List.mem_cons_of_mem _ hc)
      rcases mem_upsert (hback e he hrest) with ⟨hm, _⟩ | hm
      · exact hm
      · exact absurd (congrArg Entry.name hm) hne
    · intro n hn
      rw [List.map_cons] at hn
      rcases List.mem_cons.mp hn with rfl | hn'
      · exact hpres _ (upsert_mem_self arch n _) hnd.1
      · exact hexist n hn'

theorem findNamed_some_name {l : List Entry} {nm : String} {u : Entry}
    (h : findNamed l nm = some u) : u.name = nm ∧ u ∈ l := by
  unfold findNamed at h
  have hm := List.mem_of_find?_eq_some h
  have hp := List.find?_some h
  exact ⟨by simpa using hp, hm⟩

/-- Filtering the reassembled work root to directories gives exactly the
processed dir images. -/
theorem mergeWork_filter_dirs (fsWork upd : List Entry)
    (hdirs : ∀ u ∈ upd, u.isDir = true) :
    (mergeWork fsWork upd).filter (fun e => e.isDir) =
    (fsWork.filter (fun e => e.isDir)).map
      (fun e => match findNamed upd e.name with | some u => u | none => e) := by
  induction fsWork with
  | nil => rfl
  | cons e rest ih =>
    have hstep : mergeWork (e :: rest) upd =
        (if e.isDir then
          match findNamed upd e.name with | some x => x | none => e
        else e) :: mergeWork rest upd := rfl
    rw [hstep]
    by_cases hd : e.isDir = true
    · have himg : (match findNamed upd e.name with | some u => u | none => e).isDir = true := by
        cases hf : findNamed upd e.name with
        | some u => exact hdirs u (findNamed_some_name hf).2
        | none => exact hd
      simp [hd, himg, List.filter_cons, ih]
    · have hd' : e.isDir = false := by
        cases hb : e.isDir
        · rfl
        · exact absurd hb hd
      simp [hd', List.filter_cons, ih]

/-- The reassembled work root's directories are a permutation of the processed
work entries. -/
theorem workDirs_after_merge (fsWork upd : List Entry)
    (hnu : (upd.map Entry.name).Nodup)
    (hdirs : ∀ u ∈ upd, u.isDir = true)
    (hperm : (upd.map Entry.name).Perm
      ((fsWork.filter (fun e => e.isDir)).map Entry.name)) :
    ((mergeWork fsWork upd).filter (fun e => e.isDir)).Perm upd := by
  rw [mergeWork_filter_dirs fsWork upd hdirs]
  have h1 : (fsWork.filter (fun e => e.isDir)).map
      (fun e => match findNamed upd e.name with | some u => u | none => e) =
      ((fsWork.filter (fun e => e.isDir)).map Entry.name).map
        (fun n => match findNamed upd n with | some x => x | none => ⟨n, true, none⟩) := by
    rw [List.map_map]
    apply List.map_congr_left
    intro e he
    have hmem : e.name ∈ upd.map Entry.name :=
      hperm.mem_iff.mpr (List.mem_map_of_mem Entry.name he)
    obtain ⟨u, hu, hun⟩ := List.mem_map.mp hmem
    have hf : findNamed upd e.name = some u := by
      rw [← hun]
      exact findNamed_eq_of_mem hnu hu
    simp [hf]
  have h2 : (upd.map Entry.name).map
      (fun n => match findNamed upd n with | some x => x | none => ⟨n, true, none⟩) = upd := by
    rw [List.map_map]
    have : ∀ u ∈ upd,
        (match findNamed upd u.name with | some x => x | none => (⟨u.name, true, none⟩ : Entry)) =
        u := by
      intro u hu
      rw [findNamed_eq_of_mem hnu hu]
    calc upd.map _ = upd.map id := List.map_congr_left this
      _ = upd := List.map_id upd
  rw [h1]
  have hp := List.Perm.map
    (fun n => match findNamed upd n with | some x => x | none => (⟨n, true, none⟩ : Entry))
    hperm.symm
  rw [h2] at hp
  exact hp

/-- Sorting an already name-sorted list is the identity. -/
theorem sortByName_eq_self (l : List Entry) (hs : l.Pairwise entryLe) : sortByName l = l := by
  induction l with
  | nil => rfl
  | cons x xs ih =>
    rw [List.pairwise_cons] at hs
    show insertByName x (sortByName xs) = x :: xs
    rw [ih hs.2]
    cases xs with
    | nil => rfl
    | cons y ys =>
      have hxy : nameLe x y = true :=
        (strLe_iff_le _ _).mpr (hs.1 y (List.mem_cons_self _ _))
      simp [insertByName, hxy]

/-! Generic list facts used by the run-twice analysis. -/

theorem forall₂_mem_right {α β : Type} {R : α → β → Prop} :
    ∀ {l₁ : List α} {l₂ : List β}, List.Forall₂ R l₁ l₂ → ∀ b ∈ l₂, ∃ a ∈ l₁, R a b := by
  intro l₁ l₂ h
  induction h with
  | nil =>
    intro b hb
    cases hb
  | cons hr ht ih =>
    intro b hb
    rcases List.mem_cons.mp hb with rfl | hb'
    · exact ⟨_, List.mem_cons_self _ _, hr⟩
    · obtain ⟨a, ha, har⟩ := ih b hb'
      exact ⟨a, List.mem_cons_of_mem _ ha, har⟩

theorem entries_eq_of_name_eq {l : List Entry} (hnd : (l.map Entry.name).Nodup)
    {a b : Entry} (ha : a ∈ l) (hb : b ∈ l) (hn : a.name = b.name) : a = b :=
  List.inj_on_of_nodup_map hnd ha hb hn

theorem sublist_filter_map (p : Entry → Bool) :
    ∀ (l : List Entry) (s : List String),
      s.Sublist (l.map Entry.name) →
      (∀ e ∈ l, e.name ∈ s → p e = true) →
      s.Sublist ((l.filter p).map Entry.name) := by
  intro l
  induction l with
  | nil =>
    intro s hs _
    simpa using hs
  | cons e rest ih =>
    intro s hs hmem
    rw [List.map_cons] at hs
    cases hs with
    | cons _ h =>
      have hsub := ih s h (fun e' he' hn => hmem e' (List.mem_cons_of_mem _ he') hn)
      rw [List.filter_cons]
      by_cases hp : p e = true
      · rw [if_pos hp, List.map_cons]
        exact hsub.cons _
      · rw [if_neg hp]
        exact hsub
    | cons₂ _ h =>
      have hpe : p e = true := hmem e (List.mem_cons_self _ _) (List.mem_cons_self _ _)
      have hsub := ih _ h
        (fun e' he' hn => hmem e' (List.mem_cons_of_mem _ he') (List.mem_cons_of_mem _ hn))
      rw [List.filter_cons, if_pos hpe, List.map_cons]
      exact hsub.cons₂ _

/-! Direct evaluations of the scan-loop body in each stable branch. -/

theorem step_eval_resync (opts : Options) (genId : String → String)
    (idx : List (String × String)) (arch : Root) (w : Entry) (i : String)
    (hid : read_dir_id w.awid = some i) (hl : lookupId idx i = some w.name) :
    step opts genId idx arch w = Except.ok ⟨.RESYNC, some w.name, w, arch, none⟩ := by
  simp [step, hid, hl]

theorem step_eval_conflict_skip (opts : Options) (genId : String → String)
    (idx : List (String × String)) (arch : Root) (w : Entry) (i : String)
    (hid : read_dir_id w.awid = some i) (hl : lookupId idx i = none)
    (hex : existsName arch w.name = true) :
    step opts genId idx arch w = Except.ok ⟨.CONFLICT_SKIP, none, w, arch, none⟩ := by
  simp [step, hid, hl, hex]

theorem step_eval_restore (opts : Options) (genId : String → String)
    (idx : List (String × String)) (arch : Root) (w : Entry) (i : String)
    (hid : read_dir_id w.awid = some i) (hl : lookupId idx i = none)
    (hex : existsName arch w.name = false) :
    step opts genId idx arch w = Except.ok ⟨.RESTORE, some w.name, w, arch, none⟩ := by
  simp [step, hid, hl, hex]

theorem step_eval_new_real (opts : Options) (genId : String → String)
    (idx : List (String × String)) (arch : Root) (w : Entry)
    (hid : read_dir_id w.awid = none) (hex : existsName arch w.name = false)
    (hdry : opts.dry_run = false) :
    step opts genId idx arch w =
      Except.ok ⟨.NEW, some w.name, { w with awid := some (genId w.name) }, arch, none⟩ := by
  simp [step, hid, hex, hdry]

theorem step_eval_new_conflict_skip (opts : Options) (genId : String → String)
    (idx : List (String × String)) (arch : Root) (w : Entry)
    (hid : read_dir_id w.awid = none) (hex : existsName arch w.name = true)
    (hmn : opts.mark_new = false) :
    step opts genId idx arch w = Except.ok ⟨.NEW_CONFLICT_SKIP, none, w, arch, none⟩ := by
  simp [step, hid, hex, hmn]

/-- When every step against a fixed archive state succeeds without touching
it, the scan succeeds, leaves the archive unchanged, plans exactly the syncing
entries under their own names, and logs each entry's classification. -/
theorem scanGo_pure (opts : Options) (genId : String → String)
    (idx : List (String × String)) :
    ∀ (ws : List Entry) (arch : Root),
      (∀ w ∈ ws, ∃ o, step opts genId idx arch w = Except.ok o ∧ o.archive = arch) →
      ∃ s, scanGo opts genId idx ws arch = Except.ok s ∧
        s.archive = arch ∧
        s.plan = (ws.filter (stepSyncs opts genId idx arch)).map (fun w => (w.name, w.name)) ∧
        (∀ w ∈ ws, ∀ o, step opts genId idx arch w = Except.ok o →
          (w.name, o.action) ∈ s.actions) := by
  intro ws
  induction ws with
  | nil =>
    intro arch _
    exact ⟨⟨[], [], [], [], [], arch⟩, rfl, rfl, rfl,
           fun w hw => absurd hw (List.not_mem_nil w)⟩
  | cons w rest ih =>
    intro arch hpure
    obtain ⟨o, ho, hoarch⟩ := hpure w (List.mem_cons_self _ _)
    obtain ⟨r, hr, hrarch, hrplan, hract⟩ :=
      ih arch (fun v hv => hpure v (List.mem_cons_of_mem _ hv))
    have hr' : scanGo opts genId idx rest o.archive = Except.ok r := by
      rw [hoarch]
      exact hr
    have hgo : scanGo opts genId idx (w :: rest) arch =
        Except.ok ⟨(w.name, o.action) :: r.actions,
             (match o.target with | some t => (w.name, t) :: r.plan | none => r.plan),
             (match o.target with
              | some _ => r.skipped
              | none => (w.name, o.action) :: r.skipped),
             (match o.renamedOp with | some p => p :: r.renames | none => r.renames),
             o.workEntry :: r.workOut,
             r.archive⟩ := by
      unfold scanGo
      simp only [ho, hr']
    refine ⟨_, hgo, hrarch, ?_, ?_⟩
    · rcases step_target_eq opts genId idx arch w o ho with hnone | hsome
      · have hs : ¬ stepSyncs opts genId idx arch w = true := by
          simp [stepSyncs, ho, hnone]
        rw [List.filter_cons, if_neg hs]
        simp only [hnone]
        exact hrplan
      · have hs : stepSyncs opts genId idx arch w = true := by
          simp [stepSyncs, ho, hsome]
        rw [List.filter_cons, if_pos hs, List.map_cons]
        simp only [hsome]
        rw [hrplan]
    · intro v hv o' ho'
      rcases List.mem_cons.mp hv with rfl | hv'
      · rw [ho] at ho'
        injection ho' with hoo
        subst hoo
        exact List.mem_cons_self _ _
      · exact List.mem_cons_of_mem _ (hract v hv' o' ho')

/-- An entry of the mirrored archive sitting at a plan name is exactly the
rsync image of the work entry of that name. -/
theorem arch_plan_entry {arch₂ workOut : List Entry} {planNames : List String}
    (hnd₂ : (arch₂.map Entry.name).Nodup)
    (hwnd : (workOut.map Entry.name).Nodup)
    (hup : ∀ n ∈ planNames, (⟨n, true, mirrorContent workOut n⟩ : Entry) ∈ arch₂)
    (hsub : ∀ n ∈ planNames, n ∈ workOut.map Entry.name) :
    ∀ e ∈ arch₂, e.name ∈ planNames →
      ∃ u ∈ workOut, u.name = e.name ∧ e = ⟨e.name, true, u.awid⟩ := by
  intro e he hn
  obtain ⟨u, hu, hun⟩ := List.mem_map.mp (hsub e.name hn)
  have hmc : mirrorContent workOut e.name = u.awid := by
    unfold mirrorContent
    rw [← hun, findNamed_eq_of_mem hwnd hu]
  have heq : e = ⟨e.name, true, mirrorContent workOut e.name⟩ :=
    entries_eq_of_name_eq hnd₂ he (hup e.name hn) rfl
  exact ⟨u, hu, hun, by rw [heq, hmc]⟩

/-- In the mirrored archive, an entry at a plan name carrying the identity of
a work subdirectory can only sit at that subdirectory's name (work identities
are distinct and fresh markers collide with nothing). -/
theorem arch2_id_from_work (fs : FS) (genId : String → String)
    {ws₁ workOut : List Entry} {planNames : List String} {arch₂ : Root}
    (hwid : idsDistinct fs.work) (hgen : genIdFresh genId fs)
    (hws : ∀ w ∈ ws₁, w ∈ workDirs fs)
    (hplanEntry : ∀ e ∈ arch₂, e.name ∈ planNames →
      ∃ u ∈ workOut, u.name = e.name ∧ e = ⟨e.name, true, u.awid⟩)
    (hworkOf : ∀ u ∈ workOut, ∃ w ∈ ws₁, u.name = w.name ∧ u.isDir = w.isDir ∧
      (u.awid = w.awid ∨ (read_dir_id w.awid = none ∧ u.awid = some (genId w.name))))
    {w : Entry} (hwmem : w ∈ ws₁) {i : String} (hwi : read_dir_id w.awid = some i) :
    ∀ e ∈ arch₂, read_dir_id e.awid = some i → e.name ∈ planNames → e.name = w.name := by
  intro e he hei hn
  obtain ⟨u, hu, hun, hee⟩ := hplanEntry e he hn
  obtain ⟨w', hw', hn', _, hawid⟩ := hworkOf u hu
  have heu : e.awid = u.awid := by rw [hee]
  have hmw : w ∈ fs.work := (List.mem_filter.mp (hws w hwmem)).1
  have hmw' : w' ∈ fs.work := (List.mem_filter.mp (hws w' hw')).1
  rcases hawid with hsame | ⟨_, hgen'⟩
  · have hw'i : read_dir_id w'.awid = some i := by
      rw [← hsame, ← heu]
      exact hei
    have hdw : w.isDir = true := (List.mem_filter.mp (hws w hwmem)).2
    have hdw' : w'.isDir = true := (List.mem_filter.mp (hws w' hw')).2
    have hww : w' = w := hwid w' hmw' w hmw hdw' hdw i hw'i hwi
    rw [← hun, hn', hww]
  · have hrb : read_dir_id (some (genId w'.name)) = some (genId w'.name) :=
      hgen.1 w' (hws w' hw')
    rw [heu, hgen', hrb] at hei
    have hig : some i = some (genId w'.name) := hei.symm
    rw [Option.some.injEq] at hig
    have h4 := hgen.2.2.2 w' (hws w' hw') w hmw
    rw [hig] at hwi
    exact absurd hwi h4

/-- In the mirrored archive, an entry carrying a freshly generated marker can
only sit at the marked work subdirectory's name. -/
theorem arch2_id_from_gen (fs : FS) (genId : String → String)
    {ws₁ workOut : List Entry} {planNames : List String} {arch₂ : Root}
    (hgen : genIdFresh genId fs)
    (hws : ∀ w ∈ ws₁, w ∈ workDirs fs)
    (hplanEntry : ∀ e ∈ arch₂, e.name ∈ planNames →
      ∃ u ∈ workOut, u.name = e.name ∧ e = ⟨e.name, true, u.awid⟩)
    (hworkOf : ∀ u ∈ workOut, ∃ w ∈ ws₁, u.name = w.name ∧ u.isDir = w.isDir ∧
      (u.awid = w.awid ∨ (read_dir_id w.awid = none ∧ u.awid = some (genId w.name))))
    (hback2 : ∀ e ∈ arch₂, e.name ∉ planNames → e ∈ fs.archive)
    {w : Entry} (hwmem : w ∈ ws₁) :
    ∀ e ∈ arch₂, read_dir_id e.awid = some (genId w.name) → e.name = w.name := by
  intro e he hei
  by_cases hn : e.name ∈ planNames
  · obtain ⟨u, hu, hun, hee⟩ := hplanEntry e he hn
    obtain ⟨w', hw', hn', _, hawid⟩ := hworkOf u hu
    have heu : e.awid = u.awid := by rw [hee]
    have hmw' : w' ∈ fs.work := (List.mem_filter.mp (hws w' hw')).1
    rcases hawid with hsame | ⟨_, hgen'⟩
    · have : read_dir_id w'.awid = some (genId w.name) := by
        rw [← hsame, ← heu]
        exact hei
      exact absurd this (hgen.2.2.2 w (hws w hwmem) w' hmw')
    · have hrb : read_dir_id (some (genId w'.name)) = some (genId w'.name) :=
        hgen.1 w' (hws w' hw')
      rw [heu, hgen', hrb] at hei
      rw [Option.some.injEq] at hei
      have hnm : w'.name = w.name := hgen.2.1 w' (hws w' hw') w (hws w hwmem) hei
      rw [← hun, hn', hnm]
  · have hef := hback2 e he hn
    exact absurd hei (hgen.2.2.1 w (hws w hwmem) e hef)

/-- After a completed real run, every processed work entry steps cleanly
against the mirrored archive without touching it, and every entry that entered
the first run's plan is classified `RESYNC` again under its own name. -/
theorem second_step_ok (opts : Options) (genId : String → String) (fs : FS)
    (hdry : opts.dry_run = false)
    (hwn : namesNodup fs.work)
    (hwid : idsDistinct fs.work) (haid : idsDistinct fs.archive)
    (hgen : genIdFresh genId fs)
    (s : ScanResult)
    (hs : scanGo opts genId (knownArchiveDirs fs.archive) (sortByName (workDirs fs))
            fs.archive = Except.ok s)
    (arch₂ : Root)
    (hnd₂ : (arch₂.map Entry.name).Nodup)
    (hback : ∀ e ∈ arch₂, e.name ∉ s.plan.map Prod.fst → e ∈ s.archive)
    (hup : ∀ n ∈ s.plan.map Prod.fst,
      (⟨n, true, mirrorContent s.workOut n⟩ : Entry) ∈ arch₂) :
    ∀ u ∈ s.workOut, ∃ o, step opts genId (knownArchiveDirs arch₂) arch₂ u = Except.ok o ∧
      o.archive = arch₂ ∧
      (u.name ∈ s.plan.map Prod.fst → o.action = Action.RESYNC ∧ o.target = some u.name) := by
  have hnd_ws : ((sortByName (workDirs fs)).map Entry.name).Nodup := by
    have h₁ : ((workDirs fs).map Entry.name).Sublist (fs.work.map Entry.name) :=
      (List.filter_sublist fs.work).map Entry.name
    have h₂ : ((workDirs fs).map Entry.name).Nodup := h₁.nodup hwn
    exact (((sortByName_perm (workDirs fs)).map Entry.name).nodup_iff).mpr h₂
  have hF := scanGo_workOut_rel opts genId (knownArchiveDirs fs.archive)
    (sortByName (workDirs fs)) fs.archive s hs
  have hnames : s.workOut.map Entry.name = (sortByName (workDirs fs)).map Entry.name :=
    (scanGo_sublists opts genId _ _ _ _ hs).2.2
  have hnd_wo : (s.workOut.map Entry.name).Nodup := by
    rw [hnames]
    exact hnd_ws
  have hws : ∀ w ∈ sortByName (workDirs fs), w ∈ workDirs fs :=
    fun w hw => (sortByName_perm (workDirs fs)).subset hw
  have hworkOf : ∀ u ∈ s.workOut, ∃ w ∈ sortByName (workDirs fs),
      u.name = w.name ∧ u.isDir = w.isDir ∧
      (u.awid = w.awid ∨ (read_dir_id w.awid = none ∧ u.awid = some (genId w.name))) := by
    intro u hu
    obtain ⟨w, hw, hr⟩ := forall₂_mem_right hF u hu
    exact ⟨w, hw, hr⟩
  have hplan_sub : ∀ n ∈ s.plan.map Prod.fst, n ∈ s.workOut.map Entry.name := by
    intro n hn
    rw [hnames]
    exact ((scanGo_sublists opts genId _ _ _ _ hs).1).subset hn
  have hplanEntry := arch_plan_entry hnd₂ hnd_wo hup hplan_sub
  have horigin := scanGo_archive_origin opts genId _ hdry _ _ s hs
  have hback2 : ∀ e ∈ arch₂, e.name ∉ s.plan.map Prod.fst → e ∈ fs.archive := by
    intro e he hn
    rcases horigin e (hback e he hn) with hfs | hpl
    · exact hfs
    · exact absurd hpl hn
  intro u hu
  obtain ⟨w, hwmem, hun, _, _⟩ := hworkOf u hu
  obtain ⟨archW, oW, hstepW, hwoW, hact, htgt, hskip, hrenm⟩ :=
    scanGo_mem_strong opts genId _ _ _ s w hs hwmem hnd_ws
  have hwe_name : oW.workEntry.name = w.name := by
    rcases step_workEntry opts genId _ archW w oW hstepW with he | ⟨_, he⟩ <;> rw [he]
  have huw : u = oW.workEntry :=
    entries_eq_of_name_eq hnd_wo hu hwoW (by rw [hun, hwe_name])
  have hmc : mirrorContent s.workOut w.name = u.awid := by
    unfold mirrorContent
    rw [← hun, findNamed_eq_of_mem hnd_wo hu]
  have mkRes : ∀ j : String, read_dir_id u.awid = some j →
      lookupId (knownArchiveDirs arch₂) j = some w.name →
      ∃ o, step opts genId (knownArchiveDirs arch₂) arch₂ u = Except.ok o ∧
        o.archive = arch₂ ∧
        (u.name ∈ s.plan.map Prod.fst → o.action = Action.RESYNC ∧ o.target = some u.name) := by
    intro j hj hlj
    refine ⟨⟨.RESYNC, some u.name, u, arch₂, none⟩, ?_, rfl, fun _ => ⟨rfl, rfl⟩⟩
    refine step_eval_resync opts genId _ arch₂ u j hj ?_
    rw [hun]
    exact hlj
  rcases step_cases opts genId _ archW w oW hstepW with
    ⟨_, _, _, h4, _⟩ | ⟨arch', hid, _, _, _, _, hoW⟩ | ⟨hid, _, hmn, hoW⟩ |
    ⟨_, _, h3, _⟩ | ⟨hid, _, _, hoW⟩ | ⟨i, b, _, _, _, h4, _⟩ |
    ⟨i, b, arch', hid, hl, hbne, _, hre, hoW⟩ | ⟨i, hid, hl, hoW⟩ |
    ⟨i, hid, hl, hex, hoW⟩ | ⟨i, hid, hl, hex, hoW⟩
  · rw [hdry] at h4
    exact Bool.noConfusion h4
  · -- NEW_CONFLICT_OVERWRITE, real run: the entry was freshly marked
    have hpn : w.name ∈ s.plan.map Prod.fst :=
      List.mem_map.mpr ⟨(w.name, w.name), htgt w.name (by rw [hoW]), rfl⟩
    have hug : u.awid = some (genId w.name) := by
      rw [huw, hoW]
    have hread : read_dir_id u.awid = some (genId w.name) := by
      rw [hug]
      exact hgen.1 w (hws w hwmem)
    have he₀ : (⟨w.name, true, u.awid⟩ : Entry) ∈ arch₂ := by
      rw [← hmc]
      exact hup w.name hpn
    have huniq : ∀ e ∈ arch₂, e.isDir = true →
        read_dir_id e.awid = some (genId w.name) → e.name = w.name :=
      fun e he _ hrr =>
        arch2_id_from_gen fs genId hgen hws hplanEntry hworkOf hback2 hwmem e he hrr
    exact mkRes (genId w.name) hread
      (knownArchiveDirs_lookup_unique arch₂ (genId w.name) w.name
        ⟨w.name, true, u.awid⟩ he₀ rfl hread huniq)
  · -- NEW_CONFLICT_SKIP: not planned; the second step is a skip or a NEW
    have huww : u = w := by
      rw [huw, hoW]
    have hnp : w.name ∉ s.plan.map Prod.fst := (hskip (by rw [hoW])).2
    have hread : read_dir_id u.awid = none := by
      rw [huww]
      exact hid
    by_cases hex₂ : existsName arch₂ u.name = true
    · exact ⟨⟨.NEW_CONFLICT_SKIP, none, u, arch₂, none⟩,
        step_eval_new_conflict_skip opts genId _ arch₂ u hread hex₂ hmn, rfl,
        fun hpn => absurd (hun ▸ hpn) hnp⟩
    · have hex₂' : existsName arch₂ u.name = false := by
        cases hb : existsName arch₂ u.name
        · rfl
        · exact absurd hb hex₂
      exact ⟨⟨.NEW, some u.name, { u with awid := some (genId u.name) }, arch₂, none⟩,
        step_eval_new_real opts genId _ arch₂ u hread hex₂' hdry, rfl,
        fun hpn => absurd (hun ▸ hpn) hnp⟩
  · rw [hdry] at h3
    exact Bool.noConfusion h3
  · -- NEW, real run: the entry was freshly marked and planned
    have hpn : w.name ∈ s.plan.map Prod.fst :=
      List.mem_map.mpr ⟨(w.name, w.name), htgt w.name (by rw [hoW]), rfl⟩
    have hug : u.awid = some (genId w.name) := by
      rw [huw, hoW]
    have hread : read_dir_id u.awid = some (genId w.name) := by
      rw [hug]
      exact hgen.1 w (hws w hwmem)
    have he₀ : (⟨w.name, true, u.awid⟩ : Entry) ∈ arch₂ := by
      rw [← hmc]
      exact hup w.name hpn
    have huniq : ∀ e ∈ arch₂, e.isDir = true →
        read_dir_id e.awid = some (genId w.name) → e.name = w.name :=
      fun e he _ hrr =>
        arch2_id_from_gen fs genId hgen hws hplanEntry hworkOf hback2 hwmem e he hrr
    exact mkRes (genId w.name) hread
      (knownArchiveDirs_lookup_unique arch₂ (genId w.name) w.name
        ⟨w.name, true, u.awid⟩ he₀ rfl hread huniq)
  · rw [hdry] at h4
    exact Bool.noConfusion h4
  · -- RENAMED, real run: planned under the work name
    have huww : u = w := by
      rw [huw, hoW]
    have hpn : w.name ∈ s.plan.map Prod.fst :=
      List.mem_map.mpr ⟨(w.name, w.name), htgt w.name (by rw [hoW]), rfl⟩
    have hread : read_dir_id u.awid = some i := by
      rw [huww]
      exact hid
    have hren_mem : (b, w.name) ∈ s.renames := hrenm (b, w.name) (by rw [hoW])
    have he₀ : (⟨w.name, true, u.awid⟩ : Entry) ∈ arch₂ := by
      rw [← hmc]
      exact hup w.name hpn
    have huniq : ∀ e ∈ arch₂, e.isDir = true →
        read_dir_id e.awid = some i → e.name = w.name := by
      intro e he hd hrr
      by_cases hpl : e.name ∈ s.plan.map Prod.fst
      · exact arch2_id_from_work fs genId hwid hgen hws hplanEntry hworkOf hwmem hid
          e he hrr hpl
      · have hsa : e ∈ s.archive := hback e he hpl
        have hef : e ∈ fs.archive := hback2 e he hpl
        obtain ⟨e_b, heb, hdb, hrb, hnb⟩ := knownArchiveDirs_lookup_some fs.archive i b hl
        have heeb : e = e_b := haid e hef e_b heb hd hdb i hrr hrb
        have hexb : existsName s.archive b = true :=
          existsName_of_mem hsa (by rw [heeb, hnb])
        have hbp : b ∈ s.plan.map Prod.fst :=
          scanGo_rename_src_plan opts genId _ hdry _ _ s hs (b, w.name) hren_mem hexb
        have hebname : e.name = b := by rw [heeb, hnb]
        apply absurd _ hpl
        rw [hebname]
        exact hbp
    exact mkRes i hread
      (knownArchiveDirs_lookup_unique arch₂ i w.name ⟨w.name, true, u.awid⟩ he₀ rfl
        hread huniq)
  · -- RESYNC again
    have huww : u = w := by
      rw [huw, hoW]
    have hpn : w.name ∈ s.plan.map Prod.fst :=
      List.mem_map.mpr ⟨(w.name, w.name), htgt w.name (by rw [hoW]), rfl⟩
    have hread : read_dir_id u.awid = some i := by
      rw [huww]
      exact hid
    have he₀ : (⟨w.name, true, u.awid⟩ : Entry) ∈ arch₂ := by
      rw [← hmc]
      exact hup w.name hpn
    have huniq : ∀ e ∈ arch₂, e.isDir = true →
        read_dir_id e.awid = some i → e.name = w.name := by
      intro e he hd hrr
      by_cases hpl : e.name ∈ s.plan.map Prod.fst
      · exact arch2_id_from_work fs genId hwid hgen hws hplanEntry hworkOf hwmem hid
          e he hrr hpl
      · have hef : e ∈ fs.archive := hback2 e he hpl
        obtain ⟨e_b, heb, hdb, hrb, hnb⟩ :=
          knownArchiveDirs_lookup_some fs.archive i w.name hl
        have heeb : e = e_b := haid e hef e_b heb hd hdb i hrr hrb
        rw [heeb, hnb]
    exact mkRes i hread
      (knownArchiveDirs_lookup_unique arch₂ i w.name ⟨w.name, true, u.awid⟩ he₀ rfl
        hread huniq)
  · -- CONFLICT_SKIP: not planned; skipped again or restored
    have huww : u = w := by
      rw [huw, hoW]
    have hnp : w.name ∉ s.plan.map Prod.fst := (hskip (by rw [hoW])).2
    have hread : read_dir_id u.awid = some i := by
      rw [huww]
      exact hid
    have hlook : lookupId (knownArchiveDirs arch₂) i = none := by
      apply knownArchiveDirs_lookup_none
      intro e he hd hrr
      by_cases hpl : e.name ∈ s.plan.map Prod.fst
      · have hew : e.name = w.name :=
          arch2_id_from_work fs genId hwid hgen hws hplanEntry hworkOf hwmem hid
            e he hrr hpl
        exact hnp (hew ▸ hpl)
      · have hef : e ∈ fs.archive := hback2 e he hpl
        obtain ⟨m, hm⟩ := knownArchiveDirs_lookup_isSome fs.archive i e hef hd hrr
        rw [hl] at hm
        exact Option.noConfusion hm
    by_cases hex₂ : existsName arch₂ u.name = true
    · exact ⟨⟨.CONFLICT_SKIP, none, u, arch₂, none⟩,
        step_eval_conflict_skip opts genId _ arch₂ u i hread hlook hex₂, rfl,
        fun hpn => absurd (hun ▸ hpn) hnp⟩
    · have hex₂' : existsName arch₂ u.name = false := by
        cases hb : existsName arch₂ u.name
        · rfl
        · exact absurd hb hex₂
      exact ⟨⟨.RESTORE, some u.name, u, arch₂, none⟩,
        step_eval_restore opts genId _ arch₂ u i hread hlook hex₂', rfl,
        fun hpn => absurd (hun ▸ hpn) hnp⟩
  · -- RESTORE: planned; now found in the archive under its identity
    have huww : u = w := by
      rw [huw, hoW]
    have hpn : w.name ∈ s.plan.map Prod.fst :=
      List.mem_map.mpr ⟨(w.name, w.name), htgt w.name (by rw [hoW]), rfl⟩
    have hread : read_dir_id u.awid = some i := by
      rw [huww]
      exact hid
    have he₀ : (⟨w.name, true, u.awid⟩ : Entry) ∈ arch₂ := by
      rw [← hmc]
      exact hup w.name hpn
    have huniq : ∀ e ∈ arch₂, e.isDir = true →
        read_dir_id e.awid = some i → e.name = w.name := by
      intro e he hd hrr
      by_cases hpl : e.name ∈ s.plan.map Prod.fst
      · exact arch2_id_from_work fs genId hwid hgen hws hplanEntry hworkOf hwmem hid
          e he hrr hpl
      · exfalso
        have hef : e ∈ fs.archive := hback2 e he hpl
        obtain ⟨m, hm⟩ := knownArchiveDirs_lookup_isSome fs.archive i e hef hd hrr
        rw [hl] at hm
        exact Option.noConfusion hm
    exact mkRes i hread
      (knownArchiveDirs_lookup_unique arch₂ i w.name ⟨w.name, true, u.awid⟩ he₀ rfl
        hread huniq)

theorem pairwise_entryLe_of_names {l : List Entry}
    (h : (l.map Entry.name).Pairwise (fun a b => a ≤ b)) : l.Pairwise entryLe := by
  induction l with
  | nil => exact List.Pairwise.nil
  | cons x xs ih =>
    rw [List.map_cons, List.pairwise_cons] at h
    refine List.Pairwise.cons ?_ (ih h.2)
    intro y hy
    exact h.1 y.name (List.mem_map_of_mem _ hy)

/-- Claim C3 (corrected): with well-formed roots (distinct names, distinct
identities, fresh markers) a completed real run followed by a second run over
the resulting filesystem classifies every pair synced by the first run as
`RESYNC` — never `NEW` or `RESTORE` — and the first run's sync plan is an
order-preserving subsequence of the second run's plan.  (Unqualified
idempotence is false: the second run can fail outright on duplicate work
identities, and skipped entries can change classification, reordering nothing
but extending the plan; see the counterexample.) -/
theorem c3_second_run_resync (opts : Options) (genId : String → String) (fs : FS)
    (r₁ : RunResult)
    (hdry : opts.dry_run = false) (hmk : markRequested opts.mark = false)
    (hts : opts.test_no_rsync = false)
    (hwn : namesNodup fs.work) (han : namesNodup fs.archive)
    (hwid : idsDistinct fs.work) (haid : idsDistinct fs.archive)
    (hgen : genIdFresh genId fs)
    (h₁ : main opts genId fs = Except.ok r₁) :
    ∃ r₂, main opts genId ⟨r₁.work, r₁.archive⟩ = Except.ok r₂ ∧
      (r₁.plan.map Prod.fst).Sublist (r₂.plan.map Prod.fst) ∧
      ∀ p ∈ r₁.plan, (p.1, Action.RESYNC) ∈ r₂.actions ∧ p ∈ r₂.plan := by
  have hmk' : ¬ (markRequested opts.mark = true) := by
    rw [hmk]
    exact Bool.false_ne_true
  unfold main at h₁
  rw [if_neg hmk'] at h₁
  split at h₁
  · exact Except.noConfusion h₁
  · rename_i s hs
    cases h₁
    dsimp only
    set work₂ := mergeWork fs.work s.workOut with hwork₂
    set arch₂ := (mirrorPhase opts s.workOut s.plan s.archive).2 with harch₂
    -- run-1 context
    have hnd_ws : ((sortByName (workDirs fs)).map Entry.name).Nodup := by
      have h₁' : ((workDirs fs).map Entry.name).Sublist (fs.work.map Entry.name) :=
        (List.filter_sublist fs.work).map Entry.name
      have h₂' : ((workDirs fs).map Entry.name).Nodup := h₁'.nodup hwn
      exact (((sortByName_perm (workDirs fs)).map Entry.name).nodup_iff).mpr h₂'
    have hF := scanGo_workOut_rel opts genId (knownArchiveDirs fs.archive)
      (sortByName (workDirs fs)) fs.archive s hs
    have hnames : s.workOut.map Entry.name = (sortByName (workDirs fs)).map Entry.name :=
      (scanGo_sublists opts genId _ _ _ _ hs).2.2
    have hnd_wo : (s.workOut.map Entry.name).Nodup := by
      rw [hnames]
      exact hnd_ws
    have hpp : ∀ p ∈ s.plan, p.2 = p.1 :=
      scanGo_plan_pairs opts genId _ _ _ s hs
    have hpfnd : (s.plan.map Prod.fst).Nodup :=
      ((scanGo_sublists opts genId _ _ _ _ hs).1).nodup hnd_ws
    have hand : (s.archive.map Entry.name).Nodup :=
      scanGo_archive_nodup opts genId _ hdry _ _ s hs han
    have hplan_sub : ∀ n ∈ s.plan.map Prod.fst, n ∈ s.workOut.map Entry.name := by
      intro n hn
      rw [hnames]
      exact ((scanGo_sublists opts genId _ _ _ _ hs).1).subset hn
    -- the mirrored archive
    obtain ⟨hnd₂, hpres, hback, hupAll⟩ :=
      mirrorPhase_real opts s.workOut hdry hts s.plan s.archive hpp hpfnd hand
    -- the second scan is pure and re-syncs every planned entry
    have h2step := second_step_ok opts genId fs hdry hwn hwid haid hgen s hs
      arch₂ hnd₂ hback hupAll
    have hpure : ∀ u ∈ s.workOut, ∃ o,
        step opts genId (knownArchiveDirs arch₂) arch₂ u = Except.ok o ∧
        o.archive = arch₂ :=
      fun u hu => (h2step u hu).imp (fun o ho => ⟨ho.1, ho.2.1⟩)
    obtain ⟨s₂, hs₂, hs₂arch, hs₂plan, hs₂act⟩ :=
      scanGo_pure opts genId (knownArchiveDirs arch₂) s.workOut arch₂ hpure
    -- the second run scans exactly the processed work entries
    have hdirs_wo : ∀ u ∈ s.workOut, u.isDir = true := by
      intro u hu
      obtain ⟨w, hw, hr⟩ := forall₂_mem_right hF u hu
      rw [hr.2.1]
      exact (List.mem_filter.mp ((sortByName_perm (workDirs fs)).subset hw)).2
    have hperm_wd : (s.workOut.map Entry.name).Perm
        ((fs.work.filter (fun e => e.isDir)).map Entry.name) := by
      rw [hnames]
      exact (sortByName_perm (workDirs fs)).map Entry.name
    have hmerge : (work₂.filter (fun e => e.isDir)).Perm s.workOut :=
      workDirs_after_merge fs.work s.workOut hnd_wo hdirs_wo hperm_wd
    have hwo_pairwise : s.workOut.Pairwise entryLe := by
      have hpw : ((sortByName (workDirs fs)).map Entry.name).Pairwise (fun a b => a ≤ b) :=
        (List.pairwise_map).mpr (sortByName_pairwise (workDirs fs))
      rw [← hnames] at hpw
      exact pairwise_entryLe_of_names hpw
    have hsort₂ : sortByName (work₂.filter (fun e => e.isDir)) = s.workOut := by
      rw [sortByName_eq_of_perm _ _ hmerge hnd_wo]
      exact sortByName_eq_self _ hwo_pairwise
    refine ⟨⟨(if (!s₂.skipped.isEmpty) && opts.report_skipped then 1 else 0),
            s₂.actions, s₂.plan, s₂.skipped, s₂.renames,
            (mirrorPhase opts s₂.workOut s₂.plan s₂.archive).1,
            mergeWork work₂ s₂.workOut,
            (mirrorPhase opts s₂.workOut s₂.plan s₂.archive).2⟩, ?_, ?_, ?_⟩
    · unfold main
      rw [if_neg hmk']
      dsimp only [workDirs]
      rw [hsort₂, hs₂]
    · rw [hs₂plan, List.map_map]
      apply sublist_filter_map
      · rw [hnames]
        exact (scanGo_sublists opts genId _ _ _ _ hs).1
      · intro u hu hn
        obtain ⟨o, ho, _, hres⟩ := h2step u hu
        simp [stepSyncs, ho, (hres hn).2]
    · intro p hp
      have hpp' : p.2 = p.1 := hpp p hp
      have hn : p.1 ∈ s.plan.map Prod.fst := List.mem_map_of_mem _ hp
      obtain ⟨u, hu, hupn⟩ := List.mem_map.mp (hplan_sub p.1 hn)
      obtain ⟨o, ho, _, hres⟩ := h2step u hu
      have hrs := hres (by rw [hupn]; exact hn)
      have hp12 : p = (p.1, p.1) := by
        have hpair : (p.1, p.2) = (p.1, p.1) := by rw [hpp']
        rw [← hpair]
      constructor
      · have hmem := hs₂act u hu o ho
        rw [hrs.1] at hmem
        rw [hupn] at hmem
        exact hmem
      · rw [hs₂plan]
        refine List.mem_map.mpr ⟨u, List.mem_filter.mpr ⟨hu, ?_⟩, ?_⟩
        · simp [stepSyncs, ho, hrs.2]
        · rw [hp12, hupn]

/-- Counterexample to claim C3 as stated: (i) when two work subdirectories
carry the same identity marker, the first run completes but the second run
crashes outright (`os.rename` onto an existing destination), classifying
nothing; (ii) even with pairwise-distinct identities, a directory skipped as
`CONFLICT_SKIP` in the first run (whose same-named archive occupant was
renamed away by a later entry) becomes `RESTORE` in the second run, so the
second run's sync plan is not the first run's plan. -/
theorem c3_counterexample :
    main {} (fun n => String.append "g-" n)
        ⟨[⟨"a", true, some "X"⟩, ⟨"b", true, some "X"⟩], []⟩ =
      Except.ok ⟨0, [("a", Action.RESTORE), ("b", Action.RESTORE)],
        [("a", "a"), ("b", "b")], [], [],
        [⟨"a", "a", false⟩, ⟨"b", "b", false⟩],
        [⟨"a", true, some "X"⟩, ⟨"b", true, some "X"⟩],
        [⟨"a", true, some "X"⟩, ⟨"b", true, some "X"⟩]⟩ ∧
    main {} (fun n => String.append "g-" n)
        ⟨[⟨"a", true, some "X"⟩, ⟨"b", true, some "X"⟩],
         [⟨"a", true, some "X"⟩, ⟨"b", true, some "X"⟩]⟩ =
      Except.error "os.rename destination exists: a" ∧
    main {} (fun n => String.append "g-" n)
        ⟨[⟨"m", true, some "M"⟩, ⟨"w", true, some "A"⟩], [⟨"m", true, some "A"⟩]⟩ =
      Except.ok ⟨0, [("m", Action.CONFLICT_SKIP), ("w", Action.RENAMED "m")],
        [("w", "w")], [("m", Action.CONFLICT_SKIP)], [("m", "w")],
        [⟨"w", "w", false⟩],
        [⟨"m", true, some "M"⟩, ⟨"w", true, some "A"⟩],
        [⟨"w", true, some "A"⟩]⟩ ∧
    main {} (fun n => String.append "g-" n)
        ⟨[⟨"m", true, some "M"⟩, ⟨"w", true, some "A"⟩], [⟨"w", true, some "A"⟩]⟩ =
      Except.ok ⟨0, [("m", Action.RESTORE), ("w", Action.RESYNC)],
        [("m", "m"), ("w", "w")], [], [],
        [⟨"m", "m", false⟩, ⟨"w", "w", false⟩],
        [⟨"m", true, some "M"⟩, ⟨"w", true, some "A"⟩],
        [⟨"w", true, some "A"⟩, ⟨"m", true, some "M"⟩]⟩ ∧
    ([("m", "m"), ("w", "w")] : List (String × String)) ≠ [("w", "w")] := by
  exact ⟨by rfl, by rfl, by rfl, by rfl, by decide⟩

/-- Witness for `c3_second_run_resync`: a single marked pair already in sync
re-syncs on the second run. -/
theorem c3_witness :
    markRequested ({} : Options).mark = false ∧
    namesNodup ([⟨"a", true, some "X"⟩] : List Entry) ∧
    idsDistinct ([⟨"a", true, some "X"⟩] : List Entry) ∧
    genIdFresh (fun n => String.append "g-" n)
      ⟨[⟨"a", true, some "X"⟩], [⟨"a", true, some "X"⟩]⟩ ∧
    main {} (fun n => String.append "g-" n)
      ⟨[⟨"a", true, some "X"⟩], [⟨"a", true, some "X"⟩]⟩ =
      Except.ok ⟨0, [("a", Action.RESYNC)], [("a", "a")], [], [],
        [⟨"a", "a", false⟩], [⟨"a", true, some "X"⟩], [⟨"a", true, some "X"⟩]⟩ ∧
    ∃ r₂, main {} (fun n => String.append "g-" n)
        ⟨(RunResult.mk 0 [("a", Action.RESYNC)] [("a", "a")] [] []
            [⟨"a", "a", false⟩] [⟨"a", true, some "X"⟩] [⟨"a", true, some "X"⟩]).work,
         (RunResult.mk 0 [("a", Action.RESYNC)] [("a", "a")] [] []
            [⟨"a", "a", false⟩] [⟨"a", true, some "X"⟩] [⟨"a", true, some "X"⟩]).archive⟩ =
        Except.ok r₂ ∧
      (((RunResult.mk 0 [("a", Action.RESYNC)] [("a", "a")] [] []
          [⟨"a", "a", false⟩] [⟨"a", true, some "X"⟩]
          [⟨"a", true, some "X"⟩]).plan.map Prod.fst).Sublist (r₂.plan.map Prod.fst)) ∧
      ∀ p ∈ (RunResult.mk 0 [("a", Action.RESYNC)] [("a", "a")] [] []
          [⟨"a", "a", false⟩] [⟨"a", true, some "X"⟩] [⟨"a", true, some "X"⟩]).plan,
        (p.1, Action.RESYNC) ∈ r₂.actions ∧ p ∈ r₂.plan := by
  refine ⟨rfl, by simp only [namesNodup]; decide, ?_, ?_, by rfl, ?_⟩
  · intro e₁ h₁ e₂ h₂ _ _ i _ _
    simp only [List.mem_singleton] at h₁ h₂
    rw [h₁, h₂]
  · simp only [genIdFresh]
    decide
  · exact c3_second_run_resync {} (fun n => String.append "g-" n)
      ⟨[⟨"a", true, some "X"⟩], [⟨"a", true, some "X"⟩]⟩
      (RunResult.mk 0 [("a", Action.RESYNC)] [("a", "a")] [] []
        [⟨"a", "a", false⟩] [⟨"a", true, some "X"⟩] [⟨"a", true, some "X"⟩])
      rfl rfl rfl
      (by simp only [namesNodup]; decide)
      (by simp only [namesNodup]; decide)
      (by
        intro e₁ h₁ e₂ h₂ _ _ i _ _
        simp only [List.mem_singleton] at h₁ h₂
        rw [h₁, h₂])
      (by
        intro e₁ h₁ e₂ h₂ _ _ i _ _
        simp only [List.mem_singleton] at h₁ h₂
        rw [h₁, h₂])
      (by simp only [genIdFresh]; decide)
      (by rfl)

end AW

